import Mathlib

/-!
# Verification of the `mobx-state-tree` node core (`src/packages/mobx-state-tree/src/core/node.ts`)

A shallow embedding of the node lifecycle / tree-identity subsystem:

* `ImmutableNode` / `Node` state is modelled by `MST.NInfo`; the tree of nodes
  (the parent/child structure maintained jointly by the node's `_parent`
  pointer and the type descriptor's children map) is the mutual inductive
  `MST.LTree` / `MST.LForest`; a forest (`List LTree`) models several disjoint
  state trees, and a node is addressed by a tree index plus the list of
  subpaths from that tree's root.
* Stateful methods (`setParent`, `detach`, `die`, `resolvePath`, `emitPatch`,
  `applySnapshot`, ...) become explicit state-passing functions returning
  `Except MErr (state, events)`; JavaScript `throw` becomes `Except.error`,
  and hook / disposer / subscriber invocations are recorded as `LEvent`s.
* The path codec (`json-patch.ts`), the `walk` helper (`mst-operations.ts`)
  and the identifier-cache operations are code of this repository that is not
  under `src/`; they are modelled from the spec where marked.
* JavaScript strict equality (`===`) on snapshot values is modelled by
  `jsStrictEq` over `JsVal`, which distinguishes object references from
  primitive values.
-/

namespace MST

/-- A JavaScript value as far as strict equality (`===`) is concerned:
an object is identified by its heap reference, a primitive by its value. -/
inductive JsVal where
  | objRef (r : Nat)
  | prim (s : String)
  deriving Repr, DecidableEq

/-- JavaScript strict equality `===`: reference identity on objects,
value equality on primitives. -/
def jsStrictEq : JsVal → JsVal → Bool
  | .objRef a, .objRef b => a == b
  | .prim a, .prim b => a == b
  | _, _ => false

/-- A heap assigning (structural) contents to object references, used to
express value (deep) equality of two snapshots. -/
def Heap := List (Nat × String)

/-- Deep value equality of two snapshot values with respect to a heap. -/
def valueEq (h : Heap) (a b : JsVal) : Bool :=
  match a, b with
  | .objRef r1, .objRef r2 =>
      match h.lookup r1, h.lookup r2 with
      | some c1, some c2 => c1 == c2
      | _, _ => false
  | .prim s1, .prim s2 => s1 == s2
  | _, _ => false

/-- A reversible JSON patch (`IReversibleJsonPatch`): an operation, a path,
a value and the overwritten old value. -/
structure RPatch where
  op : String
  path : String
  value : Option JsVal
  oldValue : Option JsVal
  deriving Repr, DecidableEq

/-- A plain JSON patch (`IJsonPatch`): operation, path, value. -/
structure JPatch where
  op : String
  path : String
  value : Option JsVal
  deriving Repr, DecidableEq

/-- Modelled from the spec: `stripPatch` drops the `oldValue` of a reversible
patch (`json-patch.ts` is not under `src/`). -/
def stripPatch (p : RPatch) : JPatch :=
  ⟨p.op, p.path, p.value⟩

/-- Modelled from the spec: the inverse operation of a patch operation
(`add` ↔ `remove`, `replace` stays `replace`). -/
def invertOp : String → String
  | "add" => "remove"
  | "remove" => "add"
  | o => o

/-- Modelled from the spec: `splitPatch` splits a reversible patch into the
forward patch and the precomputed inverse, both at the same path. -/
def splitPatch (p : RPatch) : JPatch × JPatch :=
  (stripPatch p, ⟨invertOp p.op, p.path, p.oldValue⟩)

/-! ## JSON path codec

Modelled from the spec: `json-patch.ts` is not under `src/`. The spec (§4.1,
§6) states that path segments are JSON-Pointer-escaped (`/` → `~1`,
`~` → `~0`) and joined with `/`; the root path is `""`; a nonempty joined
path starts with `/`; splitting drops a leading empty segment (so `""`
splits to no segments and relative paths such as `../x` keep their leading
`..`), and the resolver's special treatment of `""`/`".."`/`"."` segments
(§4.1) applies to the split result. -/

/-- Modelled from the spec: JSON-Pointer escaping of one character
(`~` → `~0`, `/` → `~1`). -/
def escChar (c : Char) : List Char :=
  if c = '~' then ['~', '0']
  else if c = '/' then ['~', '1']
  else [c]

/-- Modelled from the spec: JSON-Pointer escaping of a path segment. -/
def escapeJsonPath (s : String) : String :=
  ⟨s.data.flatMap escChar⟩

/-- Modelled from the spec: JSON-Pointer unescaping of a character list
(`~1` → `/`, `~0` → `~`), scanning left to right. -/
def unescChars : List Char → List Char
  | [] => []
  | [c] => [c]
  | c1 :: c2 :: rest =>
      if c1 = '~' then
        if c2 = '1' then '/' :: unescChars rest
        else if c2 = '0' then '~' :: unescChars rest
        else c1 :: unescChars (c2 :: rest)
      else c1 :: unescChars (c2 :: rest)

/-- Modelled from the spec: JSON-Pointer unescaping of a path segment. -/
def unescapeJsonPath (s : String) : String :=
  ⟨unescChars s.data⟩

/-- Splitting a character list at every `/` (the segments do not contain the
separator; `n` separators yield `n + 1` segments). -/
def splitSlash : List Char → List (List Char)
  | [] => [[]]
  | c :: rest =>
      if c = '/' then [] :: splitSlash rest
      else
        match splitSlash rest with
        | s :: ss => (c :: s) :: ss
        | [] => [[c]]

/-- Modelled from the spec: split a path string into unescaped segments,
dropping a leading empty segment (`""` → `[]`, `"/a"` → `["a"]`,
`"../a"` → `["..", "a"]`). -/
def splitJsonPath (path : String) : List String :=
  let parts := (splitSlash path.data).map fun cs => unescapeJsonPath ⟨cs⟩
  match parts with
  | p :: rest => if p = "" then rest else parts
  | [] => []

/-- Join strings with `/` separators (no leading separator). -/
def joinParts : List String → String
  | [] => ""
  | [p] => p
  | p :: q :: rest => p ++ "/" ++ joinParts (q :: rest)

/-- Modelled from the spec: join escaped segments with `/`, prefixed by `/`
when nonempty; no segments yield `""`. -/
def joinJsonPath (parts : List String) : String :=
  match parts with
  | [] => ""
  | _ => "/" ++ joinParts (parts.map escapeJsonPath)

/-- JavaScript `Array.prototype.slice(0, e)` with a possibly negative end
index: a negative `e` counts from the end of the array. -/
def jsSliceTo (l : List String) (e : Int) : List String :=
  let len : Int := l.length
  let stop : Int := if e < 0 then max (len + e) 0 else min e len
  l.take stop.toNat

/-! ## Node state and the tree of nodes (`node.ts`) -/

/-- Per-node mutable state of an `ImmutableNode` / `Node`
(`node.ts` lines 70-131, 412-459). Fields ending in `F` carry the
corresponding instance field: `subpathF` is `subpath`, `parentNullF` records
whether the node's own `_parent` pointer is `null`, `cacheF` is
`identifierCache` (present only at tree roots, holding the registered node
ids), `valueF` / `snapF` stand for the type descriptor's `getValue` /
`getSnapshot` results and `frozenSnapF` for the static snapshot installed by
`finalizeDeath`. `isMutableF` distinguishes the `Node` subclass from the
`ImmutableNode` base (dynamic dispatch). -/
structure NInfo where
  nid : Nat
  subpathF : String
  parentNullF : Bool
  isAliveF : Bool
  isDetachingF : Bool
  isRunningActionF : Bool
  isProtectionEnabledF : Bool
  envF : Option Nat
  cacheF : Option (List Nat)
  disposersF : List Nat
  patchSubsF : List Nat
  snapshotSubsF : List Nat
  middlewaresF : List Nat
  isMutableF : Bool
  valueF : JsVal
  snapF : JsVal
  frozenSnapF : Option JsVal
  deriving Repr, DecidableEq

mutual
/-- A state tree: one node's state plus its children map (keyed by subpath),
as maintained by the type descriptor's children collection. -/
inductive LTree where
  | node (st : NInfo) (children : LForest)
  deriving Repr
/-- The association list of children of a node, in insertion order. -/
inductive LForest where
  | nil
  | cons (key : String) (child : LTree) (rest : LForest)
  deriving Repr
end

/-- The state of a node. -/
def LTree.info : LTree → NInfo
  | .node st _ => st

/-- The children map of a node. -/
def LTree.childrenF : LTree → LForest
  | .node _ ch => ch

/-- An address inside one tree: the chain of subpaths from the root. -/
abbrev Addr := List String

/-- Several disjoint state trees. -/
abbrev Forest := List LTree

/-- A reference to one node: tree index in the forest plus address. -/
abbrev Ref := Nat × Addr

/-- Look up a child by key (first match, as in a JavaScript map). -/
def LForest.lookupKey : LForest → String → Option LTree
  | .nil, _ => none
  | .cons k c rest, key => if k = key then some c else rest.lookupKey key

/-- Remove the child stored under a key (first match). -/
def LForest.removeKey : LForest → String → LForest
  | .nil, _ => .nil
  | .cons k c rest, key => if k = key then rest else .cons k c (rest.removeKey key)

/-- Test whether a key is present in the children map. -/
def LForest.hasKey (f : LForest) (key : String) : Bool :=
  (f.lookupKey key).isSome

/-- The subtree rooted at an address, when the address is valid. -/
def LTree.get? : LTree → Addr → Option LTree
  | t, [] => some t
  | .node _ ch, k :: ks =>
      match ch.lookupKey k with
      | some c => c.get? ks
      | none => none

mutual
/-- Replace the subtree at a (valid) address. -/
def LTree.setSub : LTree → Addr → LTree → LTree
  | _, [], r => r
  | .node st ch, k :: ks, r => .node st (LForest.setSubF ch k ks r)

/-- Replace, inside a children map, the subtree at key `k` / address `ks`. -/
def LForest.setSubF : LForest → String → Addr → LTree → LForest
  | .nil, _, _, _ => .nil
  | .cons k' c rest, k, ks, r =>
      if k' = k then .cons k' (LTree.setSub c ks r) rest
      else .cons k' c (LForest.setSubF rest k ks r)
end

/-- The state of the node at an address (`none` when invalid). -/
def infoAt? (t : LTree) (a : Addr) : Option NInfo :=
  (t.get? a).map LTree.info

/-- The state of the node at an address, defaulting arbitrarily on an invalid
address (theorems always hypothesise validity). -/
def infoAt (t : LTree) (a : Addr) : NInfo :=
  ((t.get? a).map LTree.info).getD
    ⟨0, "", true, false, false, false, false, none, none, [], [], [], [], false,
      .prim "", .prim "", none⟩

/-- Errors raised (JavaScript `throw` via `fail`) by the node operations,
by the taxonomy of spec §7. `resolutionError` carries the failing segment
and the context path printed in the message; `typeError` is a raw JavaScript
`TypeError` (dereferencing `null`), not a `fail`-raised error. -/
inductive MErr where
  | structuralViolation
  | selfContainment
  | envMismatch
  | deadNode (nid : Nat)
  | resolutionError (segment : String) (pathSoFar : String)
  | childNotFound (key : String)
  | unsupportedOperation (opName : String)
  | crossTree
  | writeProtection (nid : Nat)
  | detachDeadNode
  | invalidRef
  | typeError
  deriving Repr, DecidableEq

/-- Observable events recorded by the state-passing operations: disposer
invocations, `fireHook` calls, `finalizeDeath` completions, action-invoker
wrappers starting, and delegations to the external type descriptor. -/
inductive LEvent where
  | disposerRun (d : Nat)
  | hookFired (nid : Nat) (name : String)
  | finalized (nid : Nat)
  | actionStarted (name : String)
  | delegatedApplySnapshot (nid : Nat)
  | delegatedPatchLocally (nid : Nat) (subpath : String)
  | patchDelivered (subscriber : Nat) (forward : JPatch) (reverse : JPatch)
  deriving Repr, DecidableEq

/-! ## Path getter (`node.ts` lines 138-142)

`get path()` returns `""` for a parentless node and otherwise
`parent.path + "/" + escapeJsonPath(subpath)`. The recursion follows the
`_parent` chain, which for a node at address `a` whose `parentNullF` is unset
is the node at `a.dropLast`. -/

/-- Path of the node whose reversed address is `ra` (auxiliary: recursion on
the reversed address follows the parent chain structurally). -/
def pathAtAux (t : LTree) : List String → String
  | [] => ""
  | k :: up =>
      let st := infoAt t ((k :: up).reverse)
      if st.parentNullF then ""
      else pathAtAux t up ++ "/" ++ escapeJsonPath st.subpathF

/-- The `path` getter of the node at address `a`. -/
def pathAt (t : LTree) (a : Addr) : String :=
  pathAtAux t a.reverse

/-! ## Child access (`node.ts` lines 303-317)

`getChildNode` / `getChildren` call `assertAlive` and then delegate to the
type descriptor (`this.type.getChildNode(this, subpath)`), with auto-unboxing
temporarily disabled (the unboxing toggle has no observable effect at this
level of the model). The type descriptor resolves the subpath in its children
collection and throws its own error when the child is missing
(spec §4.1, §6: collaborator contract). -/

/-- `getChildNode`: `assertAlive`, then child lookup by subpath; returns the
child's address. A missing child is the type descriptor's error. -/
def getChildNodeM (t : LTree) (a : Addr) (subpath : String) : Except MErr Addr :=
  match t.get? a with
  | none => .error .invalidRef
  | some (.node st ch) =>
      if st.isAliveF = false then .error (.deadNode st.nid)
      else
        match ch.lookupKey subpath with
        | some _ => .ok (a ++ [subpath])
        | none => .error (.childNotFound subpath)

/-- List the keys of a children map in order. -/
def LForest.keys : LForest → List String
  | .nil => []
  | .cons k _ rest => k :: rest.keys

/-- `getChildren`: `assertAlive`, then the type descriptor's children list
(returned as the children's addresses). -/
def getChildrenM (t : LTree) (a : Addr) : Except MErr (List Addr) :=
  match t.get? a with
  | none => .error .invalidRef
  | some (.node st ch) =>
      if st.isAliveF = false then .error (.deadNode st.nid)
      else .ok (ch.keys.map fun k => a ++ [k])

/-! ## Path resolution (`node.ts` lines 219-256)

`resolvePath` iterates over the segments with a nullable `current` node:
segment `""` jumps to `current!.root`, `".."` moves to `current!.parent`
(both dereference `current`, so a `null` current is a raw `TypeError`),
`"."` skips the trailing null check, and any other segment goes through
`getChildNode` when `current` is non-null. After a `""` / `".."` step, or on
a named segment with `current` null, the `if (!current)` check either raises
`Could not resolve <segment> in <joinJsonPath(pathParts.slice(0, i - 1))>`
(when `failIfResolveFails`) or returns `undefined`. The final
`return current!` returns whatever `current` holds. -/

/-- The resolution loop of `resolvePath`. `fullParts` is the whole segment
list (used by the error message's `slice(0, i - 1)`), `i` the index of the
first segment of `rest` within `fullParts`, and `cur` the nullable current
node (`.ok none` models returning `undefined`). -/
def resolveLoop (t : LTree) (fullParts : List String) (failErr : Bool) :
    Option Addr → List String → Nat → Except MErr (Option Addr)
  | cur, [], _ => .ok cur
  | cur, p :: rest, i =>
      if p = "" then
        match cur with
        | none => .error .typeError
        | some _ =>
            -- `current = current!.root`; a root node is never null, so the
            -- trailing `if (!current)` check passes.
            resolveLoop t fullParts failErr (some []) rest (i + 1)
      else if p = ".." then
        match cur with
        | none => .error .typeError
        | some a =>
            match (if a = [] then (none : Option Addr) else some a.dropLast) with
            | none =>
                if failErr then
                  .error (.resolutionError p
                    (joinJsonPath (jsSliceTo fullParts ((i : Int) - 1))))
                else .ok none
            | some a' => resolveLoop t fullParts failErr (some a') rest (i + 1)
      else if p = "." then
        -- (the disjunct `pathParts[i] === ""` in this branch is unreachable:
        -- the first branch already matched `""`)
        resolveLoop t fullParts failErr cur rest (i + 1)
      else
        match cur with
        | some a =>
            match getChildNodeM t a p with
            | .ok a' => resolveLoop t fullParts failErr (some a') rest (i + 1)
            | .error e => .error e
        | none =>
            if failErr then
              .error (.resolutionError p
                (joinJsonPath (jsSliceTo fullParts ((i : Int) - 1))))
            else .ok none

/-- `resolvePath(pathParts, failIfResolveFails)` on the node at `a`. -/
def resolvePathM (t : LTree) (a : Addr) (parts : List String)
    (failErr : Bool) : Except MErr (Option Addr) :=
  resolveLoop t parts failErr (some a) parts 0

/-- `resolve(path, failIfResolveFails)` on the node at `a`: split, then
resolve the segments. -/
def resolveM (t : LTree) (a : Addr) (path : String) (failErr : Bool) :
    Except MErr (Option Addr) :=
  resolvePathM t a (splitJsonPath path) failErr

/-! ## Relative paths (`node.ts` lines 197-217) -/

/-- Length of the longest common path segment plus one per agreeing position:
the `for (; common < baseParts.length; common++)` loop of
`getRelativePathTo`, which stops at the first disagreement (an exhausted
target compares as `undefined`, which disagrees). -/
def commonPrefLen : List String → List String → Nat
  | a :: as, b :: bs => if a = b then commonPrefLen as bs + 1 else 0
  | _, _ => 0

/-- `getRelativePathTo(target)`: fails with the cross-tree error when the two
root nodes differ (distinct trees of the forest are distinct objects), else
emits one `..` per own segment past the common segments, followed by the
target's remaining segments joined. -/
def getRelativePathToM (f : Forest) (base target : Ref) : Except MErr String :=
  if base.1 ≠ target.1 then .error .crossTree
  else
    match f[base.1]? with
    | none => .error .invalidRef
    | some t =>
        let baseParts := splitJsonPath (pathAt t base.2)
        let targetParts := splitJsonPath (pathAt t target.2)
        let common := commonPrefLen baseParts targetParts
        .ok (joinParts ((baseParts.drop common).map fun _ => "..")
              ++ joinJsonPath (targetParts.drop common))

/-! ## The `root` getter as a pointer walk (`node.ts` lines 153-159)

`get root()` walks the `_parent` pointers until one is `null`. For a node at
address `a` the pointer chain follows `dropLast` until a node whose
`parentNullF` is set (a node whose `_parent` was cleared is its own root even
if it still sits inside another node's children map). -/

/-- Reversed address of the pointer-root of the node whose reversed address
is the argument. -/
def ptrRootAux (t : LTree) : List String → List String
  | [] => []
  | k :: up =>
      if (infoAt t ((k :: up).reverse)).parentNullF then k :: up
      else ptrRootAux t up

/-- Address of the pointer-root (the `root` getter) of the node at `a`. -/
def ptrRootAddr (t : LTree) (a : Addr) : Addr :=
  (ptrRootAux t a.reverse).reverse

/-! ## Action flags and write protection (`node.ts` lines 282-334) -/

/-- The `isRunningAction()` recursion: own `_isRunningAction` flag, else
`false` at a root (null `_parent`), else the parent's `isRunningAction()`
(argument is the reversed address). -/
def isRunningActionAux (t : LTree) : List String → Bool
  | [] => (infoAt t []).isRunningActionF
  | k :: up =>
      let st := infoAt t ((k :: up).reverse)
      if st.isRunningActionF then true
      else if st.parentNullF then false
      else isRunningActionAux t up

/-- `isRunningAction()` of the node at `a`. -/
def isRunningActionAt (t : LTree) (a : Addr) : Bool :=
  isRunningActionAux t a.reverse

/-- `get isProtected()`: the root's `isProtectionEnabled` flag. -/
def isProtectedAt (t : LTree) (a : Addr) : Bool :=
  (infoAt t (ptrRootAddr t a)).isProtectionEnabledF

/-- `assertWritable()`: `assertAlive`, then fail when not inside an action
while the tree is protected. -/
def assertWritableM (t : LTree) (a : Addr) : Except MErr Unit :=
  match t.get? a with
  | none => .error .invalidRef
  | some s =>
      if s.info.isAliveF = false then .error (.deadNode s.info.nid)
      else if !isRunningActionAt t a && isProtectedAt t a then
        .error (.writeProtection s.info.nid)
      else .ok ()

/-! ## Value and snapshot getters (`node.ts` lines 264-280, 501-527)

`get value()` returns `undefined` when the node is not alive, else the type
descriptor's `getValue`. `get snapshot()` returns `undefined` when not
alive, else the type descriptor's `getSnapshot` — but `finalizeDeath`
replaces the computed property by a plain property holding the last snapshot
(`addReadOnlyProp(this, "snapshot", this.snapshot)`), recorded here in
`frozenSnapF`, which then shadows the getter. -/

/-- The value the `snapshot` member currently yields: the frozen last
snapshot if installed, else the computed getter. -/
def snapshotView (st : NInfo) : Option JsVal :=
  match st.frozenSnapF with
  | some s => some s
  | none => if st.isAliveF then some st.snapF else none

/-- Reading `node.value` (`none` models `undefined`). -/
def nodeValue (t : LTree) (a : Addr) : Except MErr (Option JsVal) :=
  match t.get? a with
  | none => .error .invalidRef
  | some s =>
      if s.info.isAliveF = false then .ok none
      else .ok (some s.info.valueF)

/-- Reading `node.snapshot` (`none` models `undefined`). -/
def nodeSnapshot (t : LTree) (a : Addr) : Except MErr (Option JsVal) :=
  match t.get? a with
  | none => .error .invalidRef
  | some s => .ok (snapshotView s.info)

/-! ## Death (`node.ts` lines 352-366, 487-527)

`ImmutableNode.die` is a silent no-op; `ImmutableNode.aboutToDie` /
`finalizeDeath` throw. `Node.die` returns when `_isDetaching` and otherwise
runs `walk` (modelled from the spec: `mst-operations.ts` is not under
`src/`; the spec §4.2 says the walk visits the wrapped value's tree-attached
descendants depth-first, children before the node itself, and only mutable
(`Node`-backed, `$treenode`-tagged) values are tree-attached) twice over the
subtree: first `aboutToDie` everywhere, then `finalizeDeath` everywhere.

`Node.aboutToDie` runs `this.disposers.splice(0).forEach(f => f())` — the
stored disposers in stored order, which is reverse registration order since
`addDisposer` uses `unshift` — emptying the list, then fires the
`beforeDestroy` hook. `Node.finalizeDeath` notifies the root identifier
cache, freezes the last snapshot, clears the subscriber lists, sets
`_isAlive = false` and clears `_parent` / `subpath`. -/

/-- The events of one `aboutToDie` call: each stored disposer in stored
order, then the `beforeDestroy` hook. -/
def aboutToDieEvents (st : NInfo) : List LEvent :=
  st.disposersF.map .disposerRun ++ [.hookFired st.nid "beforeDestroy"]

/-- The state change of one `aboutToDie` call: `splice(0)` empties the
disposer list. -/
def aboutToDieInfo (st : NInfo) : NInfo :=
  { st with disposersF := [] }

/-- The state change of one `finalizeDeath` call (the cache notification is
applied at the root separately). -/
def finalizeNInfo (st : NInfo) : NInfo :=
  { st with
      frozenSnapF := snapshotView st
      patchSubsF := []
      snapshotSubsF := []
      isAliveF := false
      parentNullF := true
      subpathF := "" }

mutual
/-- First `walk` of `die`: `aboutToDie` on every tree-attached node of the
subtree, children before self. -/
def walkAboutT : LTree → List LEvent × LTree
  | .node st ch =>
      let (evs, ch') := walkAboutF ch
      (evs ++ aboutToDieEvents st, .node (aboutToDieInfo st) ch')
/-- First `walk` of `die` over a children map (immutable children are not
`$treenode`-tagged and are skipped). -/
def walkAboutF : LForest → List LEvent × LForest
  | .nil => ([], .nil)
  | .cons k c rest =>
      let (e1, c') := bif c.info.isMutableF then walkAboutT c else ([], c)
      let (e2, rest') := walkAboutF rest
      (e1 ++ e2, .cons k c' rest')
end

mutual
/-- Second `walk` of `die`: `finalizeDeath` on every tree-attached node of
the subtree, children before self; also collects the node ids reported to
the root identifier cache via `notifyDied`. -/
def walkFinalT : LTree → List LEvent × LTree × List Nat
  | .node st ch =>
      let (evs, ch', ds) := walkFinalF ch
      (evs ++ [.finalized st.nid], .node (finalizeNInfo st) ch', ds ++ [st.nid])
/-- Second `walk` of `die` over a children map. -/
def walkFinalF : LForest → List LEvent × LForest × List Nat
  | .nil => ([], .nil, [])
  | .cons k c rest =>
      let (e1, c', d1) := bif c.info.isMutableF then walkFinalT c else ([], c, [])
      let (e2, rest', d2) := walkFinalF rest
      (e1 ++ e2, .cons k c' rest', d1 ++ d2)
end

/-- Modelled from the spec: `notifyDied` removes the died nodes' entries
from the root's identifier cache (`identifier-cache.ts` is not under `src/`;
spec §4.4: merges/splits/notifications leave no dangling references to dead
nodes). -/
def removeFromRootCache (t : LTree) (died : List Nat) : LTree :=
  match t with
  | .node st ch =>
      .node { st with cacheF := st.cacheF.map (·.filter fun n => !died.contains n) } ch

/-- `die()` on the node at `a` (dynamic dispatch: a no-op on an
`ImmutableNode`, the two-phase walk on a `Node` unless mid-detach). -/
def dieAt (t : LTree) (a : Addr) : Except MErr (LTree × List LEvent) :=
  match t.get? a with
  | none => .error .invalidRef
  | some s =>
      if s.info.isMutableF = false then .ok (t, [])
      else if s.info.isDetachingF then .ok (t, [])
      else
        let (e1, s1) := walkAboutT s
        let (e2, s2, died) := walkFinalT s1
        .ok (removeFromRootCache (t.setSub a s2) died, e1 ++ e2)

/-- `aboutToDie()` called directly on the node at `a` (throws on an
`ImmutableNode`). -/
def aboutToDieM (t : LTree) (a : Addr) : Except MErr (LTree × List LEvent) :=
  match t.get? a with
  | none => .error .invalidRef
  | some (.node st ch) =>
      if st.isMutableF = false then .error (.unsupportedOperation "aboutToDie")
      else .ok (t.setSub a (.node (aboutToDieInfo st) ch), aboutToDieEvents st)

/-- `finalizeDeath()` called directly on the node at `a` (throws on an
`ImmutableNode`). -/
def finalizeDeathM (t : LTree) (a : Addr) : Except MErr (LTree × List LEvent) :=
  match t.get? a with
  | none => .error .invalidRef
  | some (.node st ch) =>
      if st.isMutableF = false then .error (.unsupportedOperation "finalizeDeath")
      else
        .ok (removeFromRootCache (t.setSub a (.node (finalizeNInfo st) ch)) [st.nid],
             [.finalized st.nid])

mutual
/-- All node ids of a subtree (used by the identifier-cache split). -/
def allNidsT : LTree → List Nat
  | .node st ch => st.nid :: allNidsF ch
/-- All node ids of a children map. -/
def allNidsF : LForest → List Nat
  | .nil => []
  | .cons _ c rest => allNidsT c ++ allNidsF rest
end

mutual
/-- Node ids of the dead nodes of a subtree. -/
def deadNidsT : LTree → List Nat
  | .node st ch => (bif st.isAliveF then [] else [st.nid]) ++ deadNidsF ch
/-- Node ids of the dead nodes of a children map. -/
def deadNidsF : LForest → List Nat
  | .nil => []
  | .cons _ c rest => deadNidsT c ++ deadNidsF rest
end

/-- Node ids of the dead nodes of a whole forest. -/
def deadNids (f : Forest) : List Nat :=
  f.flatMap deadNidsT

/-! ## Detach (`node.ts` lines 392-405)

`detach()` fails on a dead node, returns on a root, and otherwise fires
`beforeDetach`, copies the root environment, splits this node's portion out
of the root identifier cache (`splitCache`, modelled from the spec:
`identifier-cache.ts` is not under `src/`; spec §3/§4.4: the subtree's
entries move into a fresh private cache), asks the former parent to drop
this subpath (`type.removeChild`, modelled from the spec §4.2: the parent's
children map drops the entry; the `die()` the type descriptor triggers on
the removed child is a no-op because `_isDetaching` is set), and clears
`_parent` / `subpath`. The detached subtree becomes a root of the forest. -/

/-- The children map of the node at an address (empty when invalid). -/
def childrenAt (t : LTree) (a : Addr) : LForest :=
  match t.get? a with
  | some u => u.childrenF
  | none => .nil

/-- `detach()` on the node `(i, a)`; on success the detached subtree is
appended to the forest as a new root tree. -/
def detachAt (f : Forest) (i : Nat) (a : Addr) : Except MErr (Forest × List LEvent) :=
  match f[i]? with
  | none => .error .invalidRef
  | some t =>
      match t.get? a with
      | none => .error .invalidRef
      | some s =>
          if s.info.isAliveF = false then .error .detachDeadNode
          else if a = [] then .ok (f, [])
          else
            let st := s.info
            let rootA := ptrRootAddr t a
            let rootEnv := (infoAt t rootA).envF
            match (infoAt t rootA).cacheF with
            | none => .error .typeError
            | some rootCache =>
                let subNids := allNidsT s
                let splitOut := rootCache.filter fun n => subNids.contains n
                let remaining := rootCache.filter fun n => !subNids.contains n
                let detached : LTree :=
                  .node { st with
                            envF := rootEnv
                            cacheF := some splitOut
                            isDetachingF := false
                            parentNullF := true
                            subpathF := "" }
                    s.childrenF
                let tCache :=
                  t.setSub rootA
                    (.node { (infoAt t rootA) with cacheF := some remaining }
                      (childrenAt t rootA))
                let tAfter :=
                  match tCache.get? a.dropLast with
                  | some (.node pst pch) =>
                      tCache.setSub a.dropLast (.node pst (pch.removeKey st.subpathF))
                  | none => tCache
                .ok (f.set i tAfter ++ [detached],
                     [.hookFired st.nid "beforeDetach"])

/-! ## Subscriber and disposer registration (`node.ts` lines 368-409, 529-558)

`registerEventHandler` appends to the subscriber list; `addDisposer`
prepends (`unshift`). On an `ImmutableNode` every one of these throws. -/

/-- The state change of `addDisposer(disposer)`: `unshift` puts the new
disposer at the front of the stored list. -/
def addDisposerInfo (st : NInfo) (d : Nat) : NInfo :=
  { st with disposersF := d :: st.disposersF }

/-- `addDisposer(disposer)`: `unshift` on a `Node`, throws on an
`ImmutableNode`. -/
def addDisposerM (t : LTree) (a : Addr) (d : Nat) : Except MErr (LTree × List LEvent) :=
  match t.get? a with
  | none => .error .invalidRef
  | some (.node st ch) =>
      if st.isMutableF = false then .error (.unsupportedOperation "addDisposer")
      else .ok (t.setSub a (.node (addDisposerInfo st d) ch), [])

/-- `onPatch(handler)`: registers a patch subscriber on a `Node`, throws on
an `ImmutableNode`. -/
def onPatchM (t : LTree) (a : Addr) (h : Nat) : Except MErr (LTree × List LEvent) :=
  match t.get? a with
  | none => .error .invalidRef
  | some (.node st ch) =>
      if st.isMutableF = false then .error (.unsupportedOperation "onPatch")
      else .ok (t.setSub a (.node { st with patchSubsF := st.patchSubsF ++ [h] } ch), [])

/-- `onSnapshot(handler)`: registers a snapshot subscriber on a `Node`,
throws on an `ImmutableNode`. -/
def onSnapshotM (t : LTree) (a : Addr) (h : Nat) : Except MErr (LTree × List LEvent) :=
  match t.get? a with
  | none => .error .invalidRef
  | some (.node st ch) =>
      if st.isMutableF = false then .error (.unsupportedOperation "onSnapshot")
      else .ok (t.setSub a (.node { st with snapshotSubsF := st.snapshotSubsF ++ [h] } ch), [])

/-- `addMiddleWare(handler)`: registers a middleware on a `Node`, throws on
an `ImmutableNode`. -/
def addMiddleWareM (t : LTree) (a : Addr) (h : Nat) : Except MErr (LTree × List LEvent) :=
  match t.get? a with
  | none => .error .invalidRef
  | some (.node st ch) =>
      if st.isMutableF = false then .error (.unsupportedOperation "addMiddleWare")
      else .ok (t.setSub a (.node { st with middlewaresF := st.middlewaresF ++ [h] } ch), [])

/-! ## Snapshot and patch application (`node.ts` lines 372-386, 461-485, 560-563) -/

/-- `applySnapshot(snapshot)`: throws on an `ImmutableNode`; on a `Node` the
whole body runs as the `@APPLY_SNAPSHOT` action and short-circuits when the
incoming snapshot is strictly equal (`===`) to `this.snapshot`, otherwise
delegates to `this.type.applySnapshot` (external). -/
def applySnapshotM (t : LTree) (a : Addr) (incoming : JsVal) : Except MErr (List LEvent) :=
  match t.get? a with
  | none => .error .invalidRef
  | some s =>
      if s.info.isMutableF = false then .error (.unsupportedOperation "applySnapshot")
      else
        let same :=
          match snapshotView s.info with
          | some cur => jsStrictEq incoming cur
          | none => false
        if same then .ok [.actionStarted "@APPLY_SNAPSHOT"]
        else .ok [.actionStarted "@APPLY_SNAPSHOT", .delegatedApplySnapshot s.info.nid]

/-- `applyPatchLocally(subpath, patch)`: throws on an `ImmutableNode`; on a
`Node`, `assertWritable` then delegation to the type descriptor. -/
def applyPatchLocallyM (t : LTree) (a : Addr) (subpath : String) : Except MErr (List LEvent) :=
  match t.get? a with
  | none => .error .invalidRef
  | some s =>
      if s.info.isMutableF = false then .error (.unsupportedOperation "applyPatchLocally")
      else
        match assertWritableM t a with
        | .error e => .error e
        | .ok _ => .ok [.delegatedPatchLocally s.info.nid subpath]

/-- One step of the `@APPLY_PATCHES` loop: split the patch path, resolve the
parent of the target (with `failIfResolveFails` defaulting to `true`), and
hand the final segment to that node's `applyPatchLocally`. A resolution that
returns `undefined` makes the subsequent member call a `TypeError`. -/
def applyOnePatch (t : LTree) (a : Addr) (p : JPatch) : Except MErr (List LEvent) :=
  let parts := splitJsonPath p.path
  match resolvePathM t a parts.dropLast true with
  | .error e => .error e
  | .ok none => .error .typeError
  | .ok (some target) =>
      applyPatchLocallyM t target (parts.getLastD "")

/-- `applyPatches(patches)`: throws on an `ImmutableNode`; on a `Node` runs
as the `@APPLY_PATCHES` action, applying each patch in order. -/
def applyPatchesM (t : LTree) (a : Addr) (patches : List JPatch) : Except MErr (List LEvent) :=
  match t.get? a with
  | none => .error .invalidRef
  | some s =>
      if s.info.isMutableF = false then .error (.unsupportedOperation "applyPatches")
      else
        patches.foldlM (fun acc p => do
            let evs ← applyOnePatch t a p
            pure (acc ++ evs))
          [.actionStarted "@APPLY_PATCHES"]

/-! ## Patch emission (`node.ts` lines 356-358, 541-550)

`Node.emitPatch(basePatch, source)`: when this node has patch subscribers,
the patch path is rewritten to
`source.path.substr(this.path.length) + "/" + basePatch.path`, split into a
forward/reverse pair and delivered to each subscriber; in any case the
*original* `basePatch` is forwarded to the parent. `ImmutableNode.emitPatch`
throws. -/

/-- The subscriber deliveries performed at one node for a base patch whose
source node has path `srcPath`. -/
def emitHere (t : LTree) (a : Addr) (base : RPatch) (srcPath : String) : List LEvent :=
  let st := infoAt t a
  if st.patchSubsF.isEmpty then []
  else
    let localized := { base with
      path := (srcPath.drop (pathAt t a).length) ++ "/" ++ base.path }
    let (fw, rv) := splitPatch localized
    st.patchSubsF.map fun h => .patchDelivered h fw rv

/-- The `emitPatch` recursion up the parent chain (argument: reversed
address of the current node). -/
def emitPatchAux (t : LTree) (base : RPatch) (srcPath : String) :
    List String → Except MErr (List LEvent)
  | [] =>
      match t.get? [] with
      | none => .error .invalidRef
      | some s =>
          if s.info.isMutableF = false then .error (.unsupportedOperation "emitPatch")
          else .ok (emitHere t [] base srcPath)
  | k :: up =>
      match t.get? ((k :: up).reverse) with
      | none => .error .invalidRef
      | some s =>
          if s.info.isMutableF = false then .error (.unsupportedOperation "emitPatch")
          else
            let here := emitHere t ((k :: up).reverse) base srcPath
            if s.info.parentNullF then .ok here
            else do
              let upEvs ← emitPatchAux t base srcPath up
              pure (here ++ upEvs)

/-- `emitPatch(basePatch, source)` on the node at `a`, where the source node
sits at `srcA`. -/
def emitPatchM (t : LTree) (a : Addr) (base : RPatch) (srcA : Addr) :
    Except MErr (List LEvent) :=
  emitPatchAux t base (pathAt t srcA) a.reverse

/-! ## Reparenting (`node.ts` lines 161-194)

`setParent(newParent, subpath)` (subpath defaults to `null`):
1. no-op when both the `_parent` pointer and `subpath` are unchanged;
2. with a non-null `newParent`: fail when this node already has a different
   parent (a node cannot exist twice in a tree), when `newParent.root` is
   this node (a tree cannot contain itself), or when both trees have
   environments and they differ;
3. with a null `newParent` while parented: `die()`;
4. otherwise update `subpath` and, when the parent object actually changes,
   merge this node's identifier cache into the new root's
   (`mergeCache`, modelled from the spec §3/§4.4: the sub-tree's cache is
   absorbed into the new root's cache), set `_parent` and fire `afterAttach`.

The children-map bookkeeping around `setParent` belongs to the type
descriptor / `createNode` (which only reparents root nodes); the model
therefore realises the parent-pointer change of case 4 as moving a root
tree of the forest under the new parent, and reports `invalidRef` for the
representational corner it cannot express (attaching a non-root node whose
`_parent` pointer was cleared by a previous death, or attaching a tree
inside itself below a cleared pointer). -/

/-- Append a child at the end of a children map (JavaScript map insertion
order). -/
def LForest.push : LForest → String → LTree → LForest
  | .nil, k, c => .cons k c .nil
  | .cons k' c' rest, k, c => .cons k' c' (rest.push k c)

/-- `setParent(newParent, subpath)` on the node `r` of the forest. -/
def setParentM (f : Forest) (r : Ref) (newP : Option Ref) (sub : Option String) :
    Except MErr (Forest × List LEvent) :=
  match f[r.1]? with
  | none => .error .invalidRef
  | some t =>
      match t.get? r.2 with
      | none => .error .invalidRef
      | some s =>
          let st := s.info
          let hasParent : Bool := !r.2.isEmpty && !st.parentNullF
          let curParent : Option Ref := if hasParent then some (r.1, r.2.dropLast) else none
          if curParent == newP &&
              (match sub with | some x => st.subpathF == x | none => false) then
            .ok (f, [])
          else
            match newP with
            | some np =>
                if hasParent && np != (r.1, r.2.dropLast) then .error .structuralViolation
                else
                  match f[np.1]? with
                  | none => .error .invalidRef
                  | some tp =>
                      let npRoot : Ref := (np.1, ptrRootAddr tp np.2)
                      if !hasParent && npRoot == r then .error .selfContainment
                      else
                        let selfRootEnv := (infoAt t (ptrRootAddr t r.2)).envF
                        let npRootEnv := (infoAt tp npRoot.2).envF
                        if !hasParent && selfRootEnv.isSome && selfRootEnv != npRootEnv then
                          .error .envMismatch
                        else
                          if curParent == some np then
                            let t' := t.setSub r.2
                              (.node { st with subpathF := sub.getD "" } s.childrenF)
                            .ok (f.set r.1 t', [])
                          else
                            if !r.2.isEmpty || np.1 == r.1 then .error .invalidRef
                            else
                              match (infoAt tp npRoot.2).cacheF with
                              | none => .error .typeError
                              | some rootCache =>
                                  let childCache := st.cacheF.getD []
                                  let child : LTree :=
                                    .node { st with
                                              subpathF := sub.getD ""
                                              parentNullF := false
                                              cacheF := none }
                                      s.childrenF
                                  match tp.get? np.2 with
                                  | none => .error .invalidRef
                                  | some (.node npst npch) =>
                                      let tp1 := tp.setSub np.2
                                        (.node npst (npch.push (sub.getD "") child))
                                      let tp2 :=
                                        match tp1.get? npRoot.2 with
                                        | some (.node rst rch) =>
                                            tp1.setSub npRoot.2
                                              (.node { rst with
                                                  cacheF := some (rootCache ++ childCache) } rch)
                                        | none => tp1
                                      .ok ((f.set np.1 tp2).eraseIdx r.1,
                                           [.hookFired st.nid "afterAttach"])
            | none =>
                if hasParent then
                  match dieAt t r.2 with
                  | .error e => .error e
                  | .ok (t', evs) => .ok (f.set r.1 t', evs)
                else
                  let t' := t.setSub r.2
                    (.node { st with subpathF := sub.getD "" } s.childrenF)
                  .ok (f.set r.1 t', [])

/-! ## The transition system of state-changing node operations -/

/-- The state-changing operations implemented by `node.ts` itself (mutations
delegated to the external type descriptor are outside this system). -/
inductive MOp where
  | setP (r : Ref) (newP : Option Ref) (sub : Option String)
  | detachOp (r : Ref)
  | dieOp (r : Ref)
  | addDisp (r : Ref) (d : Nat)
  | aboutToDieOp (r : Ref)
  | finalizeDeathOp (r : Ref)
  | regPatch (r : Ref) (h : Nat)
  | regSnapshot (r : Ref) (h : Nat)
  | regMiddleware (r : Ref) (h : Nat)
  deriving Repr

/-- Run a single-tree operation at tree index `i` of the forest. -/
def liftTreeOp (f : Forest) (i : Nat)
    (op : LTree → Except MErr (LTree × List LEvent)) :
    Except MErr (Forest × List LEvent) :=
  match f[i]? with
  | none => .error .invalidRef
  | some t =>
      match op t with
      | .error e => .error e
      | .ok (t', evs) => .ok (f.set i t', evs)

/-- The step function of the transition system. -/
def applyOp : MOp → Forest → Except MErr (Forest × List LEvent)
  | .setP r np sub, f => setParentM f r np sub
  | .detachOp r, f => detachAt f r.1 r.2
  | .dieOp r, f => liftTreeOp f r.1 fun t => dieAt t r.2
  | .addDisp r d, f => liftTreeOp f r.1 fun t => addDisposerM t r.2 d
  | .aboutToDieOp r, f => liftTreeOp f r.1 fun t => aboutToDieM t r.2
  | .finalizeDeathOp r, f => liftTreeOp f r.1 fun t => finalizeDeathM t r.2
  | .regPatch r h, f => liftTreeOp f r.1 fun t => onPatchM t r.2 h
  | .regSnapshot r h, f => liftTreeOp f r.1 fun t => onSnapshotM t r.2 h
  | .regMiddleware r h, f => liftTreeOp f r.1 fun t => addMiddleWareM t r.2 h

mutual
/-- Well-keyed tree: every child is stored under its own `subpath` field,
has a non-null `_parent` pointer, and keys are distinct within one map. -/
def wfKeysT : LTree → Bool
  | .node _ ch => wfKeysF ch
/-- Well-keyed children map. -/
def wfKeysF : LForest → Bool
  | .nil => true
  | .cons k c rest =>
      (c.info.subpathF == k) && !c.info.parentNullF && !rest.hasKey k &&
        wfKeysT c && wfKeysF rest
end

/-- Well-keyed forest. -/
def wfKeys (f : Forest) : Bool :=
  f.all wfKeysT

/-! ## Specification-side views of the tree (used to state the theorems) -/

mutual
/-- The tree-attached (`Node`-backed) node states of a subtree in the
post-order the `walk` helper visits them: children first, then the node. -/
def postOrderInfosT : LTree → List NInfo
  | .node st ch => postOrderInfosF ch ++ [st]
/-- Post-order node states below a children map (immutable children are not
tree-attached and are skipped, subtrees included). -/
def postOrderInfosF : LForest → List NInfo
  | .nil => []
  | .cons _ c rest =>
      (bif c.info.isMutableF then postOrderInfosT c else []) ++ postOrderInfosF rest
end

mutual
/-- Every tree-attached node of the subtree is dead with an empty disposer
list. -/
def allAttachedDeadT : LTree → Bool
  | .node st ch => !st.isAliveF && st.disposersF.isEmpty && allAttachedDeadF ch
/-- `allAttachedDeadT` under a children map. -/
def allAttachedDeadF : LForest → Bool
  | .nil => true
  | .cons _ c rest =>
      (bif c.info.isMutableF then allAttachedDeadT c else true) && allAttachedDeadF rest
end

mutual
/-- Every node of the subtree is alive. -/
def allAliveT : LTree → Bool
  | .node st ch => st.isAliveF && allAliveF ch
/-- `allAliveT` under a children map. -/
def allAliveF : LForest → Bool
  | .nil => true
  | .cons _ c rest => allAliveT c && allAliveF rest
end

/-! ## Concrete fixtures (used by witnesses and counterexamples) -/

/-- A live mutable node state with the given id and subpath. -/
def mkInfo (n : Nat) (sp : String) : NInfo :=
  { nid := n, subpathF := sp, parentNullF := false, isAliveF := true,
    isDetachingF := false, isRunningActionF := false, isProtectionEnabledF := true,
    envF := none, cacheF := none, disposersF := [], patchSubsF := [],
    snapshotSubsF := [], middlewaresF := [], isMutableF := true,
    valueF := .prim "v", snapF := .prim "s", frozenSnapF := none }

/-- State of an immutable leaf node (a wrapped primitive). -/
def leafImmInfo : NInfo :=
  { mkInfo 9 "w" with isMutableF := false, parentNullF := true }

/-- A standalone immutable leaf node. -/
def leafImmT : LTree := .node leafImmInfo .nil

/-- A small live tree: root `0` with mutable child `x` (which has patch
subscriber `11` and disposers registered in order `4`, then `5`), mutable
grandchild `x/z`, and immutable leaf child `w`. -/
def fixT : LTree :=
  .node { mkInfo 0 "" with
            parentNullF := true
            cacheF := some [0, 1, 2]
            envF := some 7
            disposersF := [9] }
    (.cons "x"
      (.node { mkInfo 1 "x" with disposersF := [5, 4], patchSubsF := [11] }
        (.cons "z" (.node (mkInfo 2 "z") .nil) .nil))
      (.cons "w" (.node { mkInfo 3 "w" with isMutableF := false } .nil) .nil))

/-- A tree whose second child is stored under the subpath `".."` (legal for
the node layer: `setParent` accepts any subpath string). -/
def cxT : LTree :=
  .node { mkInfo 0 "" with parentNullF := true, cacheF := some [0, 1, 2] }
    (.cons "x" (.node (mkInfo 1 "x") .nil)
      (.cons ".." (.node (mkInfo 2 "..") .nil) .nil))

/-- A heap with two distinct objects of equal contents. -/
def cHeap : Heap := [(1, "s"), (2, "s")]

/-- A mutable root whose current snapshot is the object `1`. -/
def snapT : LTree :=
  .node { mkInfo 0 "" with parentNullF := true, snapF := .objRef 1 } .nil

/-- A dead mutable node (as left behind by `finalizeDeath`). -/
def deadT : LTree :=
  .node { mkInfo 4 "" with
            parentNullF := true
            isAliveF := false
            frozenSnapF := some (.prim "s") } .nil

/-- `fixT` after `addDisposer(7)` on the child `x`. -/
def fixTD7 : LTree :=
  .node { mkInfo 0 "" with
            parentNullF := true
            cacheF := some [0, 1, 2]
            envF := some 7
            disposersF := [9] }
    (.cons "x"
      (.node { mkInfo 1 "x" with disposersF := [7, 5, 4], patchSubsF := [11] }
        (.cons "z" (.node (mkInfo 2 "z") .nil) .nil))
      (.cons "w" (.node { mkInfo 3 "w" with isMutableF := false } .nil) .nil))

/-! # Theorems -/

/-- C7 (amended): on an immutable (leaf) node, every mutation-oriented
operation except `die` — `applyPatchLocally`, `applyPatches`,
`applySnapshot`, `onPatch`, `onSnapshot`, `addMiddleWare`, `aboutToDie`,
`finalizeDeath`, `addDisposer` — raises an `UnsupportedOperationError`;
`die()` itself is a silent no-op (`node.ts` line 352: "ImmutableNode never
dies"). -/
theorem immutable_ops_unsupported (t : LTree) (a : Addr) (st : NInfo) (ch : LForest)
    (hget : t.get? a = some (.node st ch)) (him : st.isMutableF = false)
    (sp : String) (ps : List JPatch) (v : JsVal) (h d : Nat) :
    applyPatchLocallyM t a sp = .error (.unsupportedOperation "applyPatchLocally") ∧
    applyPatchesM t a ps = .error (.unsupportedOperation "applyPatches") ∧
    applySnapshotM t a v = .error (.unsupportedOperation "applySnapshot") ∧
    onPatchM t a h = .error (.unsupportedOperation "onPatch") ∧
    onSnapshotM t a h = .error (.unsupportedOperation "onSnapshot") ∧
    addMiddleWareM t a h = .error (.unsupportedOperation "addMiddleWare") ∧
    aboutToDieM t a = .error (.unsupportedOperation "aboutToDie") ∧
    finalizeDeathM t a = .error (.unsupportedOperation "finalizeDeath") ∧
    addDisposerM t a d = .error (.unsupportedOperation "addDisposer") ∧
    dieAt t a = .ok (t, []) := by
  refine ⟨?_, ?_, ?_, ?_, ?_, ?_, ?_, ?_, ?_, ?_⟩ <;>
    simp [applyPatchLocallyM, applyPatchesM, applySnapshotM, onPatchM, onSnapshotM,
          addMiddleWareM, aboutToDieM, finalizeDeathM, addDisposerM, dieAt, hget,
          LTree.info, him]

/-- C7 witness: the amended statement at a concrete immutable leaf. -/
theorem immutable_ops_unsupported_holds :
    applyPatchLocallyM leafImmT [] "k" = .error (.unsupportedOperation "applyPatchLocally") ∧
    applyPatchesM leafImmT [] [] = .error (.unsupportedOperation "applyPatches") ∧
    applySnapshotM leafImmT [] (.prim "s") = .error (.unsupportedOperation "applySnapshot") ∧
    onPatchM leafImmT [] 1 = .error (.unsupportedOperation "onPatch") ∧
    onSnapshotM leafImmT [] 1 = .error (.unsupportedOperation "onSnapshot") ∧
    addMiddleWareM leafImmT [] 1 = .error (.unsupportedOperation "addMiddleWare") ∧
    aboutToDieM leafImmT [] = .error (.unsupportedOperation "aboutToDie") ∧
    finalizeDeathM leafImmT [] = .error (.unsupportedOperation "finalizeDeath") ∧
    addDisposerM leafImmT [] 1 = .error (.unsupportedOperation "addDisposer") ∧
    dieAt leafImmT [] = .ok (leafImmT, []) :=
  immutable_ops_unsupported leafImmT [] leafImmInfo .nil rfl rfl "k" [] (.prim "s") 1 1

/-- C7 counterexample: `die()` on an immutable node does not raise an
`UnsupportedOperationError` — it returns normally as a silent no-op, so the
claim's list is wrong about `die`. -/
theorem immutable_die_is_noop :
    dieAt leafImmT [] = .ok (leafImmT, []) ∧ leafImmT.info.isMutableF = false :=
  ⟨rfl, rfl⟩

/-- C3: evaluation of `resolvePath` at the failing input. Resolving
`["..", "x", "z"]` from a parentless node fails at index `i = 0` on segment
`".."`, but the raised message's context path is
`joinJsonPath(pathParts.slice(0, i - 1))` = `joinJsonPath(["..", "x"])` =
`"/../x"` — the segments *after* the failure point (JavaScript
`slice(0, -1)`), not the path resolved so far (which is `""`). -/
theorem resolvePath_error_slice_eval :
    resolvePathM fixT [] ["..", "x", "z"] true =
      .error (.resolutionError ".." "/../x") ∧
    jsSliceTo ["..", "x", "z"] ((0 : Int) - 1) = ["..", "x"] :=
  ⟨rfl, rfl⟩

/-- C9 (amended): `applySnapshot(snapshot)` on a live mutable node runs as
the single `@APPLY_SNAPSHOT` action and short-circuits as a no-op exactly
when the incoming snapshot is strictly equal (JavaScript `===`: same object
reference, or equal primitive) to the current snapshot; otherwise — in
particular for a value-equal but distinct snapshot object — it delegates
full reconciliation to the type descriptor. -/
theorem applySnapshot_strict_eq_shortCircuits (t : LTree) (a : Addr) (s : LTree)
    (incoming : JsVal) (hget : t.get? a = some s) (hm : s.info.isMutableF = true)
    (halive : s.info.isAliveF = true) (hfr : s.info.frozenSnapF = none) :
    (jsStrictEq incoming s.info.snapF = true →
      applySnapshotM t a incoming = .ok [.actionStarted "@APPLY_SNAPSHOT"]) ∧
    (jsStrictEq incoming s.info.snapF = false →
      applySnapshotM t a incoming =
        .ok [.actionStarted "@APPLY_SNAPSHOT", .delegatedApplySnapshot s.info.nid]) := by
  constructor <;> intro hEq <;>
    simp [applySnapshotM, hget, hm, snapshotView, hfr, halive, hEq]

/-- C9 witness: the strictly-equal case short-circuits at a concrete node. -/
theorem applySnapshot_strict_eq_shortCircuits_holds :
    applySnapshotM snapT [] (.objRef 1) = .ok [.actionStarted "@APPLY_SNAPSHOT"] :=
  (applySnapshot_strict_eq_shortCircuits snapT [] snapT (.objRef 1)
    rfl rfl rfl rfl).1 rfl

/-- C9 counterexample: a snapshot that is value-equal (same heap contents)
but not reference-equal to the current snapshot is *not* short-circuited:
the call is delegated to the type descriptor, so "value-equal" input does
not guarantee a no-op as the claim states. -/
theorem applySnapshot_value_equal_delegates :
    valueEq cHeap (.objRef 2) (.objRef 1) = true ∧
    applySnapshotM snapT [] (.objRef 2) =
      .ok [.actionStarted "@APPLY_SNAPSHOT", .delegatedApplySnapshot 0] :=
  ⟨rfl, rfl⟩

/-! ## Structural helper lemmas -/

/-- Address lookup distributes over address concatenation. -/
theorem LTree.get?_append : ∀ (xs ys : Addr) (t : LTree),
    t.get? (xs ++ ys) = (t.get? xs).bind fun u => u.get? ys
  | [], ys, t => by simp [LTree.get?]
  | k :: xs, ys, .node st ch => by
      simp only [List.cons_append, LTree.get?]
      cases hc : ch.lookupKey k with
      | none => simp
      | some c => simpa using LTree.get?_append xs ys c

/-- A successful lookup in a well-keyed children map yields a child whose
`subpath` field is its key, with a non-null parent pointer, itself
well-keyed. -/
theorem wfKeysF_lookup : ∀ (ch : LForest) (k : String) (c : LTree),
    wfKeysF ch = true → ch.lookupKey k = some c →
    c.info.subpathF = k ∧ c.info.parentNullF = false ∧ wfKeysT c = true
  | .nil, k, c => by intro _ h; simp [LForest.lookupKey] at h
  | .cons k' c' rest, k, c => by
      intro hwf hlk
      simp only [wfKeysF, Bool.and_eq_true, beq_iff_eq, Bool.not_eq_true'] at hwf
      obtain ⟨⟨⟨⟨hsp, hpn⟩, _⟩, hwt⟩, hwr⟩ := hwf
      rw [LForest.lookupKey] at hlk
      by_cases hkk : k' = k
      · subst hkk
        simp at hlk
        subst hlk
        exact ⟨hsp, hpn, hwt⟩
      · simp only [if_neg hkk] at hlk
        exact wfKeysF_lookup rest k c hwr hlk

/-- In a well-keyed tree, the node at any valid address is itself well-keyed,
and has a non-null parent pointer unless it is the root. -/
theorem wf_get_props : ∀ (a : Addr) (t s : LTree), wfKeysT t = true →
    t.get? a = some s → wfKeysT s = true ∧ (a ≠ [] → s.info.parentNullF = false)
  | [], t, s => by
      intro hwf hget
      simp only [LTree.get?, Option.some.injEq] at hget
      subst hget; exact ⟨hwf, fun h => absurd rfl h⟩
  | k :: ks, .node st ch, s => by
      intro hwf hget
      simp only [LTree.get?] at hget
      cases hc : ch.lookupKey k with
      | none => rw [hc] at hget; exact absurd hget (by simp)
      | some c =>
          rw [hc] at hget
          have hch : wfKeysF ch = true := by simpa [wfKeysT] using hwf
          obtain ⟨_, hpn, hwc⟩ := wfKeysF_lookup ch k c hch hc
          obtain ⟨hws, hps⟩ := wf_get_props ks c s hwc hget
          refine ⟨hws, fun _ => ?_⟩
          cases ks with
          | nil =>
              simp only [LTree.get?, Option.some.injEq] at hget
              subst hget; exact hpn
          | cons k' ks' => exact hps (by simp)

/-- In a well-keyed tree every prefix of a valid address is valid. -/
theorem wf_get_take (a : Addr) (t s : LTree) (hget : t.get? a = some s) (n : Nat) :
    ∃ u, t.get? (a.take n) = some u := by
  have hsplit : a = a.take n ++ a.drop n := (List.take_append_drop n a).symm
  rw [hsplit, LTree.get?_append] at hget
  cases hu : t.get? (a.take n) with
  | none => rw [hu] at hget; exact absurd hget (by simp)
  | some u => exact ⟨u, rfl⟩

/-- In a well-keyed tree, walking the `_parent` pointers from any valid
address reaches the tree root (auxiliary form on reversed addresses). -/
theorem ptrRootAux_of_wf : ∀ (ra : List String) (t s : LTree), wfKeysT t = true →
    t.get? ra.reverse = some s → ptrRootAux t ra = []
  | [], _, _ => by intro _ _; rfl
  | k :: up, t, s => by
      intro hwf hget
      have hget' : t.get? (up.reverse ++ [k]) = some s := by simpa using hget
      have h2 := (wf_get_props ((k :: up).reverse) t s hwf hget).2 (by simp)
      have hpn : (infoAt t (up.reverse ++ [k])).parentNullF = false := by
        simp [infoAt, hget', h2]
      rw [ptrRootAux]
      simp only [List.reverse_cons]
      rw [if_neg (by simp [hpn])]
      obtain ⟨u, hu⟩ := wf_get_take (up.reverse ++ [k]) t s hget' up.length
      have hrev : (up.reverse ++ [k]).take up.length = up.reverse := by
        rw [show up.length = up.reverse.length from (List.length_reverse up).symm,
            List.take_left]
      rw [hrev] at hu
      exact ptrRootAux_of_wf up t u hwf hu

/-- In a well-keyed tree, the `root` getter of any valid node is the tree
root. -/
theorem ptrRootAddr_of_wf (t s : LTree) (a : Addr) (hwf : wfKeysT t = true)
    (hget : t.get? a = some s) : ptrRootAddr t a = [] := by
  rw [ptrRootAddr, ptrRootAux_of_wf a.reverse t s hwf (by simpa using hget)]
  rfl

/-- The `isRunningAction()` recursion computes the disjunction of the
`_isRunningAction` flags along the chain from the root down to the node
(on a well-keyed tree, where the parent chain is the address chain). -/
theorem isRunningActionAux_spec : ∀ (ra : List String) (t s : LTree),
    wfKeysT t = true → t.get? ra.reverse = some s →
    isRunningActionAux t ra =
      (ra.reverse.inits.any fun p => (infoAt t p).isRunningActionF)
  | [], t, s => by
      intro _ hget
      simp only [List.reverse_nil, LTree.get?, Option.some.injEq] at hget
      simp [isRunningActionAux, List.inits, infoAt, LTree.get?]
  | k :: up, t, s => by
      intro hwf hget
      have hget' : t.get? (up.reverse ++ [k]) = some s := by simpa using hget
      have hpn : s.info.parentNullF = false :=
        (wf_get_props ((k :: up).reverse) t s hwf hget).2 (by simp)
      obtain ⟨u, hu⟩ := wf_get_take (up.reverse ++ [k]) t s hget' up.length
      have hrev : (up.reverse ++ [k]).take up.length = up.reverse := by
        rw [show up.length = up.reverse.length from (List.length_reverse up).symm,
            List.take_left]
      rw [hrev] at hu
      have hIH := isRunningActionAux_spec up t u hwf hu
      have hst : infoAt t (up.reverse ++ [k]) = s.info := by simp [infoAt, hget']
      rw [isRunningActionAux]
      cases hf : s.info.isRunningActionF <;>
        simp [List.reverse_cons, hst, hf, hpn, hIH, List.inits_append, List.inits,
              Bool.or_comm, List.any_append]

/-- C10: `isRunningAction()` is true iff this node or some ancestor on the
path to the root has `_isRunningAction` set; `isProtected` reflects solely
the root's `isProtectionEnabled` flag; and on an alive node `assertWritable`
raises exactly when no node from it up to the root is running an action and
the root has protection enabled. -/
theorem writability_inherited (t : LTree) (a : Addr) (s : LTree)
    (hwf : wfKeysT t = true) (hget : t.get? a = some s) :
    (isRunningActionAt t a = a.inits.any fun p => (infoAt t p).isRunningActionF) ∧
    (isProtectedAt t a = t.info.isProtectionEnabledF) ∧
    (s.info.isAliveF = true →
      (assertWritableM t a = .error (.writeProtection s.info.nid) ↔
        (a.inits.any fun p => (infoAt t p).isRunningActionF) = false ∧
          t.info.isProtectionEnabledF = true)) := by
  have hrun : isRunningActionAt t a =
      (a.inits.any fun p => (infoAt t p).isRunningActionF) := by
    have := isRunningActionAux_spec a.reverse t s hwf (by simpa using hget)
    simpa [isRunningActionAt] using this
  have hprot : isProtectedAt t a = t.info.isProtectionEnabledF := by
    rw [isProtectedAt, ptrRootAddr_of_wf t s a hwf hget]
    simp [infoAt, LTree.get?]
  refine ⟨hrun, hprot, fun halive => ?_⟩
  rw [assertWritableM, hget]
  simp only [halive]
  cases hany : (a.inits.any fun p => (infoAt t p).isRunningActionF) <;>
    cases hpe : t.info.isProtectionEnabledF <;>
      simp [hrun, hprot, hany, hpe]

/-- C10 witness: at the node `x/z` of the concrete tree `fixT` (protection
enabled at the root, no action running anywhere), `assertWritable` raises
the write-protection error. -/
theorem writability_inherited_holds :
    assertWritableM fixT ["x", "z"] = .error (.writeProtection 2) :=
  ((writability_inherited fixT ["x", "z"] (.node (mkInfo 2 "z") .nil)
      rfl rfl).2.2 rfl).2 ⟨rfl, rfl⟩

/-- C2: `setParent` with a non-null new parent different from an existing
non-null parent fails with the structural violation ("A node cannot exists
twice in the state tree") before any state change; and `setParent` with the
same parent object and the same subpath is a complete no-op — the forest is
returned unchanged and no events (no cache merge, no hooks) are produced. -/
theorem setParent_rejects_and_noop :
    (∀ (f : Forest) (r : Ref) (np : Ref) (sub : Option String) (t s : LTree),
      f[r.1]? = some t → t.get? r.2 = some s →
      r.2 ≠ [] → s.info.parentNullF = false → np ≠ (r.1, r.2.dropLast) →
      setParentM f r (some np) sub = .error .structuralViolation) ∧
    (∀ (f : Forest) (r : Ref) (t s : LTree),
      f[r.1]? = some t → t.get? r.2 = some s →
      setParentM f r
        (if r.2.isEmpty || s.info.parentNullF then none else some (r.1, r.2.dropLast))
        (some s.info.subpathF) = .ok (f, [])) := by
  constructor
  · intro f r np sub t s hT hS hne hpn hdiff
    have hemp : r.2.isEmpty = false := by
      cases hr : r.2 with
      | nil => exact absurd hr hne
      | cons x xs => rfl
    have hnoop : ((some (r.1, r.2.dropLast) : Option Ref) == some np) = false :=
      beq_eq_false_iff_ne.mpr (by simpa using Ne.symm hdiff)
    have hsv : (np != (r.1, r.2.dropLast)) = true := bne_iff_ne.mpr hdiff
    simp [setParentM, hT, hS, hemp, hpn, hnoop, hsv]
  · intro f r t s hT hS
    cases hemp : r.2.isEmpty <;> cases hpn : s.info.parentNullF <;>
      simp [setParentM, hT, hS, hemp, hpn]

/-- The subscriber deliveries at one node, written as an unconditional map
(empty subscriber list delivers nothing either way). -/
theorem emitHere_eq_map (t : LTree) (a : Addr) (base : RPatch) (srcPath : String) :
    emitHere t a base srcPath =
      (infoAt t a).patchSubsF.map fun h =>
        .patchDelivered h
          ⟨base.op, srcPath.drop (pathAt t a).length ++ "/" ++ base.path, base.value⟩
          ⟨invertOp base.op, srcPath.drop (pathAt t a).length ++ "/" ++ base.path,
            base.oldValue⟩ := by
  rw [emitHere]
  cases hsub : (infoAt t a).patchSubsF with
  | nil => simp
  | cons x xs => simp [splitPatch, stripPatch]

/-- The `emitPatch` recursion delivers, at every node from the starting one
up the (well-keyed, all-mutable) parent chain to the root, the relativized
split pair built from the unchanged original base patch and source path. -/
theorem emitPatchAux_spec : ∀ (ra : List String) (t s : LTree) (base : RPatch)
    (srcPath : String), wfKeysT t = true → t.get? ra.reverse = some s →
    (∀ n, (infoAt t (ra.reverse.take n)).isMutableF = true) →
    emitPatchAux t base srcPath ra =
      .ok (ra.reverse.inits.reverse.flatMap fun p =>
        (infoAt t p).patchSubsF.map fun h =>
          .patchDelivered h
            ⟨base.op, srcPath.drop (pathAt t p).length ++ "/" ++ base.path, base.value⟩
            ⟨invertOp base.op, srcPath.drop (pathAt t p).length ++ "/" ++ base.path,
              base.oldValue⟩)
  | [], t, s, base, srcPath => by
      intro hwf hget hmut
      simp only [List.reverse_nil] at hget
      have hmt : s.info.isMutableF = true := by
        have h0 := hmut 0
        simpa [infoAt, hget] using h0
      simp [emitPatchAux, hget, hmt, emitHere_eq_map, List.inits]
  | k :: up, t, s, base, srcPath => by
      intro hwf hget hmut
      have hget' : t.get? (up.reverse ++ [k]) = some s := by simpa using hget
      have hpn : s.info.parentNullF = false :=
        (wf_get_props ((k :: up).reverse) t s hwf hget).2 (by simp)
      obtain ⟨u, hu⟩ := wf_get_take (up.reverse ++ [k]) t s hget' up.length
      have hrev : (up.reverse ++ [k]).take up.length = up.reverse := by
        rw [show up.length = up.reverse.length from (List.length_reverse up).symm,
            List.take_left]
      rw [hrev] at hu
      have htk : up.reverse.take up.length = up.reverse := by
        rw [show up.length = up.reverse.length from (List.length_reverse up).symm,
            List.take_length]
      have hmut' : ∀ n, (infoAt t (up.reverse.take n)).isMutableF = true := by
        intro n
        have h0 := hmut (min n up.length)
        simp only [List.reverse_cons] at h0
        rwa [show (up.reverse ++ [k]).take (min n up.length) = up.reverse.take n by
          rw [List.take_append_of_le_length (by simp), ← List.take_take, htk]] at h0
      have hmt : s.info.isMutableF = true := by
        have h0 := hmut ((k :: up).reverse.length)
        rwa [List.take_length,
          show infoAt t ((k :: up).reverse) = s.info from by simp [infoAt, hget']] at h0
      have hIH := emitPatchAux_spec up t u base srcPath hwf hu hmut'
      simp only [List.reverse_cons] at hget ⊢
      simp [emitPatchAux, hget, hmt, hpn, hIH, emitHere_eq_map,
            List.inits_append, List.inits]

/-- C5: `emitPatch(basePatch, source)` delivers to the patch subscribers of
the node and of every ancestor a forward/reverse pair whose path is the
suffix of the source's path relative to that ancestor
(`source.path.substr(ancestor.path.length)`) concatenated with `"/"` and the
original `basePatch.path`; the base patch is forwarded unchanged to each
parent, so every ancestor relativizes independently to itself. -/
theorem emitPatch_relativizes (t : LTree) (a : Addr) (s : LTree) (base : RPatch)
    (srcA : Addr) (hwf : wfKeysT t = true) (hget : t.get? a = some s)
    (hmut : ∀ n, (infoAt t (a.take n)).isMutableF = true) :
    emitPatchM t a base srcA =
      .ok (a.inits.reverse.flatMap fun p =>
        (infoAt t p).patchSubsF.map fun h =>
          .patchDelivered h
            ⟨base.op,
              (pathAt t srcA).drop (pathAt t p).length ++ "/" ++ base.path, base.value⟩
            ⟨invertOp base.op,
              (pathAt t srcA).drop (pathAt t p).length ++ "/" ++ base.path,
              base.oldValue⟩) := by
  have h := emitPatchAux_spec a.reverse t s base (pathAt t srcA) hwf
    (by simpa using hget) (by simpa using hmut)
  simpa [emitPatchM] using h

/-- C5 witness: a patch emitted at `x/z` of the concrete tree is delivered
to subscriber `11` at `x` with the path relativized to `x`. -/
theorem emitPatch_relativizes_holds :
    emitPatchM fixT ["x", "z"] ⟨"replace", "k", some (.prim "1"), some (.prim "0")⟩
        ["x", "z"] =
      .ok [.patchDelivered 11 ⟨"replace", "/z/k", some (.prim "1")⟩
            ⟨"replace", "/z/k", some (.prim "0")⟩] :=
  emitPatch_relativizes fixT ["x", "z"] (.node (mkInfo 2 "z") .nil)
    ⟨"replace", "k", some (.prim "1"), some (.prim "0")⟩ ["x", "z"] rfl rfl
    (by
      intro n
      match n with
      | 0 => rfl
      | 1 => rfl
      | 2 => rfl
      | n + 3 => rw [List.take_of_length_le (by simp)]; rfl)

/-- Replacing the subtree stored under a present key makes lookup return the
replacement. -/
theorem LForest.lookupKey_setSubF : ∀ (ch : LForest) (k : String) (ks : Addr)
    (r c : LTree), ch.lookupKey k = some c →
    (ch.setSubF k ks r).lookupKey k = some (c.setSub ks r)
  | .nil, k, ks, r, c => by intro h; simp [LForest.lookupKey] at h
  | .cons k' c' rest, k, ks, r, c => by
      intro h
      rw [LForest.lookupKey] at h
      by_cases hkk : k' = k
      · subst hkk
        simp at h
        subst h
        simp [LForest.setSubF, LForest.lookupKey]
      · simp only [if_neg hkk] at h
        rw [LForest.setSubF, if_neg hkk, LForest.lookupKey, if_neg hkk]
        exact LForest.lookupKey_setSubF rest k ks r c h

/-- Replacing the subtree at a valid address makes lookup there return the
replacement. -/
theorem LTree.get?_setSub : ∀ (a : Addr) (t s r : LTree), t.get? a = some s →
    (t.setSub a r).get? a = some r
  | [], t, s, r => by intro _; simp [LTree.setSub, LTree.get?]
  | k :: ks, .node st ch, s, r => by
      intro hget
      rw [LTree.get?] at hget
      cases hc : ch.lookupKey k with
      | none => rw [hc] at hget; exact absurd hget (by simp)
      | some c =>
          rw [hc] at hget
          rw [LTree.setSub, LTree.get?, LForest.lookupKey_setSubF ch k ks r c hc]
          exact LTree.get?_setSub ks c s r hget

mutual
/-- The first `die` walk produces the post-order `aboutToDie` trace and maps
every tree-attached node state through `aboutToDieInfo`. -/
theorem walkAboutT_spec : ∀ (s : LTree),
    (walkAboutT s).1 = (postOrderInfosT s).flatMap aboutToDieEvents ∧
    postOrderInfosT (walkAboutT s).2 = (postOrderInfosT s).map aboutToDieInfo ∧
    (walkAboutT s).2.info = aboutToDieInfo s.info
  | .node st ch => by
      obtain ⟨h1, h2⟩ := walkAboutF_spec ch
      rcases hw : walkAboutF ch with ⟨evs, ch'⟩
      rw [hw] at h1 h2
      simp only at h1 h2
      simp [walkAboutT, hw, postOrderInfosT, h1, h2, LTree.info]
/-- Forest version of `walkAboutT_spec`. -/
theorem walkAboutF_spec : ∀ (f : LForest),
    (walkAboutF f).1 = (postOrderInfosF f).flatMap aboutToDieEvents ∧
    postOrderInfosF (walkAboutF f).2 = (postOrderInfosF f).map aboutToDieInfo
  | .nil => by simp [walkAboutF, postOrderInfosF]
  | .cons k c rest => by
      obtain ⟨h1, h2, h3⟩ := walkAboutT_spec c
      obtain ⟨h4, h5⟩ := walkAboutF_spec rest
      rcases hwc : walkAboutT c with ⟨evs1, c'⟩
      rcases hwr : walkAboutF rest with ⟨evs2, rest'⟩
      rw [hwc] at h1 h2 h3
      rw [hwr] at h4 h5
      simp only at h1 h2 h3 h4 h5
      cases hm : c.info.isMutableF with
      | false => simp [walkAboutF, hwr, postOrderInfosF, hm, h4, h5]
      | true =>
          have hm' : c'.info.isMutableF = true := by
            rw [h3]; simpa [aboutToDieInfo] using hm
          simp [walkAboutF, hwc, hwr, postOrderInfosF, hm, hm', h1, h2, h4, h5]
end

mutual
/-- The second `die` walk produces the post-order `finalizeDeath` trace, maps
every tree-attached node state through `finalizeNInfo`, and reports exactly
the post-order node ids to the identifier cache. -/
theorem walkFinalT_spec : ∀ (s : LTree),
    (walkFinalT s).1 = (postOrderInfosT s).map (fun st => .finalized st.nid) ∧
    postOrderInfosT (walkFinalT s).2.1 = (postOrderInfosT s).map finalizeNInfo ∧
    (walkFinalT s).2.1.info = finalizeNInfo s.info ∧
    (walkFinalT s).2.2 = (postOrderInfosT s).map NInfo.nid
  | .node st ch => by
      obtain ⟨h1, h2, h3⟩ := walkFinalF_spec ch
      rcases hw : walkFinalF ch with ⟨evs, ch', ds⟩
      rw [hw] at h1 h2 h3
      simp only at h1 h2 h3
      simp [walkFinalT, hw, postOrderInfosT, h1, h2, h3, LTree.info]
/-- Forest version of `walkFinalT_spec`. -/
theorem walkFinalF_spec : ∀ (f : LForest),
    (walkFinalF f).1 = (postOrderInfosF f).map (fun st => .finalized st.nid) ∧
    postOrderInfosF (walkFinalF f).2.1 = (postOrderInfosF f).map finalizeNInfo ∧
    (walkFinalF f).2.2 = (postOrderInfosF f).map NInfo.nid
  | .nil => by simp [walkFinalF, postOrderInfosF]
  | .cons k c rest => by
      obtain ⟨h1, h2, h3, h4⟩ := walkFinalT_spec c
      obtain ⟨h5, h6, h7⟩ := walkFinalF_spec rest
      rcases hwc : walkFinalT c with ⟨evs1, c', ds1⟩
      rcases hwr : walkFinalF rest with ⟨evs2, rest', ds2⟩
      rw [hwc] at h1 h2 h3 h4
      rw [hwr] at h5 h6 h7
      simp only at h1 h2 h3 h4 h5 h6 h7
      cases hm : c.info.isMutableF with
      | false => simp [walkFinalF, hwr, postOrderInfosF, hm, h5, h6, h7]
      | true =>
          have hm' : c'.info.isMutableF = true := by
            rw [h3]; simpa [finalizeNInfo] using hm
          simp [walkFinalF, hwc, hwr, postOrderInfosF, hm, hm', h1, h2, h4, h5, h6, h7]
end

mutual
/-- After the two `die` walks, every tree-attached node of the subtree is
dead with an empty disposer list. -/
theorem dieWalk_allDead_T : ∀ (s : LTree),
    allAttachedDeadT (walkFinalT (walkAboutT s).2).2.1 = true
  | .node st ch => by
      rcases hwa : walkAboutF ch with ⟨evs, ch1⟩
      have hF := dieWalk_allDead_F ch
      rw [hwa] at hF
      simp only at hF
      rcases hwf : walkFinalF ch1 with ⟨evs2, ch2, ds⟩
      rw [hwf] at hF
      simp only at hF
      simp [walkAboutT, hwa, walkFinalT, hwf, allAttachedDeadT, finalizeNInfo,
            aboutToDieInfo, hF]
/-- Forest version of `dieWalk_allDead_T`. -/
theorem dieWalk_allDead_F : ∀ (f : LForest),
    allAttachedDeadF (walkFinalF (walkAboutF f).2).2.1 = true
  | .nil => by simp [walkAboutF, walkFinalF, allAttachedDeadF]
  | .cons k c rest => by
      rcases hwc : walkAboutT c with ⟨evs1, c'⟩
      rcases hwr : walkAboutF rest with ⟨evs2, rest'⟩
      have hT := dieWalk_allDead_T c
      have hF := dieWalk_allDead_F rest
      rw [hwc] at hT
      rw [hwr] at hF
      simp only at hT hF
      have h3 := (walkAboutT_spec c).2.2
      rw [hwc] at h3
      simp only at h3
      cases hm : c.info.isMutableF with
      | false => simp [walkAboutF, hwc, hwr, walkFinalF, hm, allAttachedDeadF, hF]
      | true =>
          have hm' : c'.info.isMutableF = true := by
            rw [h3]; simpa [aboutToDieInfo] using hm
          rcases hfc : walkFinalT c' with ⟨evs3, c'', ds1⟩
          rw [hfc] at hT
          simp only at hT
          have h3' := (walkFinalT_spec c').2.2.1
          rw [hfc] at h3'
          simp only at h3'
          have hm'' : c''.info.isMutableF = true := by
            rw [h3']; simpa [finalizeNInfo] using hm'
          simp [walkAboutF, hwc, hwr, walkFinalF, hm, hm', hfc, allAttachedDeadF,
                hT, hF, hm'']
end

/-- Removing cache entries at the root does not affect deadness or disposer
emptiness. -/
theorem allAttachedDead_removeCache (u : LTree) (d : List Nat) :
    allAttachedDeadT (removeFromRootCache u d) = allAttachedDeadT u := by
  cases u with
  | node st ch => simp [removeFromRootCache, allAttachedDeadT]

/-- Lookup below the root is unaffected by the root cache update; at the
root the updated tree is returned. -/
theorem get?_removeFromRootCache (u : LTree) (d : List Nat) (a : Addr) (s : LTree)
    (hne : a ≠ []) (hget : u.get? a = some s) :
    (removeFromRootCache u d).get? a = some s := by
  cases u with
  | node st ch =>
      cases a with
      | nil => exact absurd rfl hne
      | cons k ks => simpa [removeFromRootCache, LTree.get?] using hget

/-- C1: on a mutable node that is not mid-detach, `die()` performs the
two-phase depth-first cascade: first `aboutToDie` on every tree-attached
node of the subtree (running that node's stored disposers — reverse
registration order, since `addDisposer` prepends — exactly once, then firing
`beforeDestroy`), and only afterwards `finalizeDeath` on every one of them;
afterwards every tree-attached node of the subtree is dead with an empty
disposer list. -/
theorem die_two_phase (t s : LTree) (a : Addr) (hget : t.get? a = some s)
    (hm : s.info.isMutableF = true) (hd : s.info.isDetachingF = false) :
    (∃ t', dieAt t a =
        .ok (t',
          ((postOrderInfosT s).flatMap fun st =>
              st.disposersF.map LEvent.disposerRun ++
                [.hookFired st.nid "beforeDestroy"]) ++
            (postOrderInfosT s).map fun st => .finalized st.nid) ∧
      ∃ s', t'.get? a = some s' ∧ allAttachedDeadT s' = true) ∧
    (∀ (regs : List Nat) (st0 : NInfo),
      (regs.foldl addDisposerInfo st0).disposersF = regs.reverse ++ st0.disposersF) := by
  constructor
  · rcases hwa : walkAboutT s with ⟨e1, s1⟩
    rcases hwf : walkFinalT s1 with ⟨e2, s2, died⟩
    have hA := walkAboutT_spec s
    rw [hwa] at hA
    obtain ⟨hA1, hA2, hA3⟩ := hA
    simp only at hA1 hA2 hA3
    have hB := walkFinalT_spec s1
    rw [hwf] at hB
    obtain ⟨hB1, hB2, hB3, hB4⟩ := hB
    simp only at hB1 hB2 hB3 hB4
    have hDead : allAttachedDeadT s2 = true := by
      have h := dieWalk_allDead_T s
      rw [hwa] at h
      simp only at h
      rw [hwf] at h
      simpa using h
    have he1 : e1 = (postOrderInfosT s).flatMap fun st =>
        st.disposersF.map LEvent.disposerRun ++ [.hookFired st.nid "beforeDestroy"] := by
      rw [hA1]; rfl
    have he2 : e2 = (postOrderInfosT s).map fun st => .finalized st.nid := by
      rw [hB1, hA2, List.map_map]
      simp [aboutToDieInfo, Function.comp]
    refine ⟨removeFromRootCache (t.setSub a s2) died, ?_, ?_⟩
    · have hrun : dieAt t a =
          .ok (removeFromRootCache (t.setSub a s2) died, e1 ++ e2) := by
        simp [dieAt, hget, hm, hd, hwa, hwf]
      rw [hrun, he1, he2]
    · refine ⟨?_, ?_, ?_⟩
      case _ =>
        exact if hne : a = [] then removeFromRootCache s2 died else s2
      case _ =>
        by_cases hne : a = []
        · subst hne
          simp only [LTree.setSub, dif_pos]
          cases s2 with
          | node st2 ch2 => simp [removeFromRootCache, LTree.get?]
        · rw [dif_neg hne]
          exact get?_removeFromRootCache _ died a s2 hne
            (LTree.get?_setSub a t s s2 hget)
      case _ =>
        by_cases hne : a = []
        · rw [dif_pos hne, allAttachedDead_removeCache]
          exact hDead
        · rw [dif_neg hne]
          exact hDead
  · intro regs
    induction regs with
    | nil => intro st0; simp
    | cons d ds ih =>
        intro st0
        simp [List.foldl_cons, ih, addDisposerInfo]

/-- C1 witness: `die()` on the concrete tree `fixT` (root `0`, mutable child
`x` = node `1` with disposers registered `4` then `5`, grandchild `z` = node
`2`, immutable leaf `w`) runs both phases post-order — disposers `5` then
`4` (reverse registration order) — and leaves every tree-attached node dead. -/
theorem die_two_phase_holds :
    ∃ t', dieAt fixT [] =
        .ok (t',
          [.hookFired 2 "beforeDestroy", .disposerRun 5, .disposerRun 4,
           .hookFired 1 "beforeDestroy", .disposerRun 9, .hookFired 0 "beforeDestroy",
           .finalized 2, .finalized 1, .finalized 0]) ∧
      ∃ s', t'.get? [] = some s' ∧ allAttachedDeadT s' = true :=
  (die_two_phase fixT fixT [] rfl rfl rfl).1

/-- A key missing from a children map looks up to nothing. -/
theorem lookupKey_of_hasKey_false : ∀ (ch : LForest) (k : String),
    ch.hasKey k = false → ch.lookupKey k = none := by
  intro ch k h
  rw [LForest.hasKey] at h
  cases hc : ch.lookupKey k with
  | none => rfl
  | some c => rw [hc] at h; simp at h

/-- Removing a key from a well-keyed (distinct-key) children map makes that
key unresolvable. -/
theorem removeKey_lookup_none : ∀ (ch : LForest) (k : String),
    wfKeysF ch = true → (ch.removeKey k).lookupKey k = none
  | .nil, k => by intro _; rfl
  | .cons k' c rest, k => by
      intro hwf
      simp only [wfKeysF, Bool.and_eq_true, Bool.not_eq_true'] at hwf
      obtain ⟨⟨⟨⟨_, _⟩, hnk⟩, _⟩, hwr⟩ := hwf
      rw [LForest.removeKey]
      by_cases hkk : k' = k
      · subst hkk
        rw [if_pos rfl]
        exact lookupKey_of_hasKey_false rest k' hnk
      · rw [if_neg hkk, LForest.lookupKey, if_neg hkk]
        exact removeKey_lookup_none rest k hwr

/-- Changing only the root node's state leaves every lookup result's
children and well-keyedness intact. -/
theorem get?_root_info_change (pa : Addr) (st st' : NInfo) (ch : LForest)
    (p : LTree) (hget : (LTree.node st ch).get? pa = some p) :
    ∃ q, (LTree.node st' ch).get? pa = some q ∧ q.childrenF = p.childrenF ∧
      wfKeysT q = wfKeysT p := by
  cases pa with
  | nil =>
      simp only [LTree.get?, Option.some.injEq] at hget
      subst hget
      exact ⟨LTree.node st' ch, rfl, rfl, by simp [wfKeysT]⟩
  | cons k ks => exact ⟨p, hget, rfl, rfl⟩

/-- The state of the root node. -/
theorem infoAt_nil (t : LTree) : infoAt t [] = t.info := by
  cases t with | node st ch => rfl

/-- C6: `detach()` raises on a dead node; is a no-op on a root node; and on
any other alive node (of a well-keyed tree whose root holds the identifier
cache) fires `beforeDetach`, copies the root environment into the node,
splits the subtree's identifier-cache entries into a private cache, removes
the subpath from the former parent, and clears parent and subpath — so the
detached node is still alive, is its own root (null parent, path `""`), and
no longer resolvable under its former parent. -/
theorem detach_behavior :
    (∀ (f : Forest) (i : Nat) (a : Addr) (t s : LTree),
      f[i]? = some t → t.get? a = some s → s.info.isAliveF = false →
      detachAt f i a = .error .detachDeadNode) ∧
    (∀ (f : Forest) (i : Nat) (t : LTree),
      f[i]? = some t → t.info.isAliveF = true →
      detachAt f i [] = .ok (f, [])) ∧
    (∀ (f : Forest) (i : Nat) (pa : Addr) (k : String) (t s : LTree)
      (rc : List Nat),
      f[i]? = some t → t.get? (pa ++ [k]) = some s →
      wfKeysT t = true → s.info.isAliveF = true → t.info.cacheF = some rc →
      ∃ tAfter d,
        detachAt f i (pa ++ [k]) =
          .ok (f.set i tAfter ++ [d], [.hookFired s.info.nid "beforeDetach"]) ∧
        d.info.isAliveF = true ∧ d.info.parentNullF = true ∧
        d.info.subpathF = "" ∧ pathAt d [] = "" ∧
        d.info.envF = t.info.envF ∧
        d.info.cacheF = some (rc.filter fun n => (allNidsT s).contains n) ∧
        d.childrenF = s.childrenF ∧
        tAfter.get? (pa ++ [k]) = none) := by
  refine ⟨?_, ?_, ?_⟩
  · intro f i a t s hT hS hdead
    simp [detachAt, hT, hS, hdead]
  · intro f i t hT halive
    have h0 : t.get? [] = some t := by cases t with | node st ch => rfl
    simp [detachAt, hT, h0, halive]
  · intro f i pa k t s rc hT hS hwf halive hc
    have hroot : ptrRootAddr t (pa ++ [k]) = [] := ptrRootAddr_of_wf t s _ hwf hS
    have htk : (pa ++ [k]).take pa.length = pa := List.take_left pa [k]
    obtain ⟨parent, hpar⟩ := wf_get_take (pa ++ [k]) t s hS pa.length
    rw [htk] at hpar
    cases parent with | node pst pch => ?_
    have hSk : pch.lookupKey k = some s := by
      have h := hS
      rw [LTree.get?_append, hpar] at h
      simp only [Option.some_bind] at h
      rw [LTree.get?] at h
      cases hl : pch.lookupKey k with
      | none => rw [hl] at h; exact absurd h (by simp)
      | some c =>
          simp only [hl] at h
          have hc0 : c.get? [] = some c := by cases c with | node a b => rfl
          rw [hc0] at h
          simpa using h
    have hwfp : wfKeysF pch = true := by
      have := (wf_get_props pa t (.node pst pch) hwf hpar).1
      simpa [wfKeysT] using this
    obtain ⟨hsub, _, _⟩ := wfKeysF_lookup pch k s hwfp hSk
    cases t with | node rst rch => ?_
    cases s with | node sst sch => ?_
    obtain ⟨q, hq, hqch, hqwf⟩ :=
      get?_root_info_change pa rst { rst with
        cacheF := some (rc.filter fun n => !(allNidsT (.node sst sch)).contains n) } rch
        (.node pst pch) hpar
    cases q with | node qst qch => ?_
    have hqch2 : qch = pch := hqch
    subst hqch2
    have hc' : rst.cacheF = some rc := hc
    simp only [LTree.info] at hsub halive
    refine ⟨LTree.setSub
        (.node { rst with
            cacheF := some (rc.filter fun n => !(allNidsT (.node sst sch)).contains n) } rch)
        pa (.node qst (qch.removeKey k)),
      .node { sst with
                envF := rst.envF
                cacheF := some (rc.filter fun n => (allNidsT (.node sst sch)).contains n)
                isDetachingF := false
                parentNullF := true
                subpathF := "" } sch, ?_, halive, rfl, rfl, rfl, rfl, rfl, rfl, ?_⟩
    · simp only [detachAt, hT, hS]
      rw [if_neg (by simp [LTree.info, halive]), if_neg (by simp)]
      simp only [hroot, infoAt_nil, LTree.info, hc', List.dropLast_concat]
      split
      case _ pst2 pch2 heq =>
          have heq2 : (LTree.node { rst with
              cacheF := some (rc.filter fun n =>
                !(allNidsT (LTree.node sst sch)).contains n) } rch).get? pa =
              some (LTree.node pst2 pch2) := heq
          rw [hq] at heq2
          simp only [Option.some.injEq, LTree.node.injEq] at heq2
          obtain ⟨h1, h2⟩ := heq2
          subst h1
          subst h2
          simp only [LTree.info, hsub]
          rfl
      case _ heq =>
          have heq2 : (LTree.node { rst with
              cacheF := some (rc.filter fun n =>
                !(allNidsT (LTree.node sst sch)).contains n) } rch).get? pa =
              none := heq
          rw [hq] at heq2
          exact absurd heq2 (by simp)
    · rw [LTree.get?_append,
          LTree.get?_setSub pa _ (.node qst qch) _ hq]
      simp only [Option.some_bind]
      rw [LTree.get?, removeKey_lookup_none qch k hwfp]

/-- C6 witness: detaching `x` from the concrete tree `fixT` fires
`beforeDetach` on node `1`, keeps it alive as its own root with path `""`,
hands it the cache entries of its subtree, and removes it from the root's
children. -/
theorem detach_behavior_holds :
    ∃ tAfter d,
      detachAt [fixT] 0 ["x"] =
        .ok ([fixT].set 0 tAfter ++ [d], [.hookFired 1 "beforeDetach"]) ∧
      d.info.isAliveF = true ∧ d.info.parentNullF = true ∧
      d.info.subpathF = "" ∧ pathAt d [] = "" ∧
      d.info.envF = some 7 ∧ d.info.cacheF = some [1, 2] ∧
      d.childrenF = .cons "z" (.node (mkInfo 2 "z") .nil) .nil ∧
      tAfter.get? ["x"] = none :=
  detach_behavior.2.2 [fixT] 0 [] "x" fixT
    (.node { mkInfo 1 "x" with disposersF := [5, 4], patchSubsF := [11] }
      (.cons "z" (.node (mkInfo 2 "z") .nil) .nil))
    [0, 1, 2] rfl rfl rfl rfl rfl


/-- C2 witness: in the concrete tree, moving `x/z` under the root fails with
the structural violation, and re-setting `x`'s parent to the root with
subpath `"x"` is a no-op. -/
theorem setParent_rejects_and_noop_holds :
    setParentM [fixT] (0, ["x", "z"]) (some (0, [])) none = .error .structuralViolation ∧
    setParentM [fixT] (0, ["x"]) (some (0, [])) (some "x") = .ok ([fixT], []) :=
  ⟨setParent_rejects_and_noop.1 [fixT] (0, ["x", "z"]) (0, []) none fixT
      (.node (mkInfo 2 "z") .nil) rfl rfl (by simp) rfl (by simp),
    setParent_rejects_and_noop.2 [fixT] (0, ["x"]) fixT
      (.node { mkInfo 1 "x" with disposersF := [5, 4], patchSubsF := [11] }
        (.cons "z" (.node (mkInfo 2 "z") .nil) .nil)) rfl rfl⟩

/-! ## Deadness lemmas (for claim C8) -/

/-- Membership in the dead ids of a forest via one of its trees. -/
theorem mem_deadNids_of_mem {f : Forest} {u : LTree} {n : Nat}
    (hu : u ∈ f) (hn : n ∈ deadNidsT u) : n ∈ deadNids f := by
  rw [deadNids]
  exact List.mem_flatMap.mpr ⟨u, hu, hn⟩

/-- A dead id of a forest comes from the tree at some index. -/
theorem exists_of_mem_deadNids {f : Forest} {n : Nat} (h : n ∈ deadNids f) :
    ∃ m, ∃ hm : m < f.length, n ∈ deadNidsT f[m] := by
  rw [deadNids] at h
  obtain ⟨u, hu, hn⟩ := List.mem_flatMap.mp h
  obtain ⟨m, hm, he⟩ := List.mem_iff_getElem.mp hu
  exact ⟨m, hm, he ▸ hn⟩

/-- An element at an index other than the erased one survives `eraseIdx`. -/
theorem mem_eraseIdx_of_ne : ∀ (l : List LTree) (i m : Nat) (h : m < l.length),
    m ≠ i → l[m] ∈ l.eraseIdx i
  | [], i, m, h => by simp at h
  | x :: xs, 0, 0, h => fun hmi => absurd rfl hmi
  | x :: xs, 0, m + 1, h => fun _ => by
      simp only [List.eraseIdx, List.getElem_cons_succ]
      exact List.getElem_mem _
  | x :: xs, i + 1, 0, h => fun _ => by
      simp [List.eraseIdx]
  | x :: xs, i + 1, m + 1, h => fun hmi => by
      simp only [List.eraseIdx, List.getElem_cons_succ]
      exact List.mem_cons_of_mem x
        (mem_eraseIdx_of_ne xs i m (by simpa using h) (by omega))

/-- The value written by `set` survives a later `eraseIdx` at another index. -/
theorem mem_set_eraseIdx (l : List LTree) (j : Nat) (x : LTree) (i : Nat)
    (hj : j < l.length) (hij : i ≠ j) : x ∈ (l.set j x).eraseIdx i := by
  have hj2 : j < (l.set j x).length := by simpa using hj
  have h2 := mem_eraseIdx_of_ne (l.set j x) i j hj2 (Ne.symm hij)
  rwa [List.getElem_set_self hj2] at h2

/-- The value written by `set` is a member of the result. -/
theorem mem_set_self (l : List LTree) (j : Nat) (x : LTree) (hj : j < l.length) :
    x ∈ l.set j x := by
  have hj' : j < (l.set j x).length := by simpa using hj
  exact List.mem_iff_getElem.mpr ⟨j, hj', List.getElem_set_self hj'⟩

/-- An element at another index survives `set`. -/
theorem mem_set_of_ne (l : List LTree) (j : Nat) (x : LTree) (m : Nat)
    (hm : m < l.length) (hne : m ≠ j) : l[m] ∈ l.set j x := by
  have hm' : m < (l.set j x).length := by simpa using hm
  exact List.mem_iff_getElem.mpr ⟨m, hm', by rw [List.getElem_set_ne (by omega)]⟩

/-- A dead id of a subtree is a dead id of the whole tree (forest form). -/
theorem deadF_of_lookup : ∀ (ch : LForest) (k : String) (c : LTree),
    ch.lookupKey k = some c → ∀ m, m ∈ deadNidsT c → m ∈ deadNidsF ch
  | .nil, k, c => by intro h; simp [LForest.lookupKey] at h
  | .cons k' c' rest, k, c => by
      intro h m hm
      rw [LForest.lookupKey] at h
      rw [deadNidsF]
      by_cases hkk : k' = k
      · rw [if_pos hkk] at h
        cases h
        exact List.mem_append.mpr (Or.inl hm)
      · rw [if_neg hkk] at h
        exact List.mem_append.mpr (Or.inr (deadF_of_lookup rest k c h m hm))

/-- A dead id of the subtree at a valid address is a dead id of the tree. -/
theorem deadT_of_subtree : ∀ (a : Addr) (u v : LTree), u.get? a = some v →
    ∀ m, m ∈ deadNidsT v → m ∈ deadNidsT u
  | [], u, v => by
      intro h m hm
      cases u with | node st ch => ?_
      simp only [LTree.get?, Option.some.injEq] at h
      rwa [h]
  | k :: ks, .node st ch, v => by
      intro h m hm
      rw [LTree.get?] at h
      cases hl : ch.lookupKey k with
      | none => rw [hl] at h; exact absurd h (by simp)
      | some c =>
          rw [hl] at h
          rw [deadNidsT]
          exact List.mem_append.mpr (Or.inr
            (deadF_of_lookup ch k c hl m (deadT_of_subtree ks c v h m hm)))

/-- Forest form of `deadT_setSub_cover`. -/
theorem deadF_setSubF_cover (k : String) (ks : Addr) (r : LTree) (X : List Nat)
    (ih : ∀ (c : LTree), (∀ s, c.get? ks = some s →
        ∀ m, m ∈ deadNidsT s → m ∈ deadNidsT r ∨ m ∈ X) →
      ∀ m, m ∈ deadNidsT c → m ∈ deadNidsT (c.setSub ks r) ∨ m ∈ X) :
    ∀ (ch : LForest),
      (∀ c, ch.lookupKey k = some c → ∀ s, c.get? ks = some s →
        ∀ m, m ∈ deadNidsT s → m ∈ deadNidsT r ∨ m ∈ X) →
      ∀ m, m ∈ deadNidsF ch → m ∈ deadNidsF (LForest.setSubF ch k ks r) ∨ m ∈ X
  | .nil => by intro _ m hm; simp [deadNidsF] at hm
  | .cons k' c rest => by
      intro hyp m hm
      rw [deadNidsF] at hm
      rw [LForest.setSubF]
      by_cases hkk : k' = k
      · subst hkk
        rw [if_pos rfl]
        rcases List.mem_append.mp hm with hc | hr
        · rcases ih c (hyp c (by rw [LForest.lookupKey, if_pos rfl])) m hc with h | h
          · left; rw [deadNidsF]; exact List.mem_append.mpr (Or.inl h)
          · right; exact h
        · left; rw [deadNidsF]; exact List.mem_append.mpr (Or.inr hr)
      · rw [if_neg hkk]
        rcases List.mem_append.mp hm with hc | hr
        · left; rw [deadNidsF]; exact List.mem_append.mpr (Or.inl hc)
        · rcases deadF_setSubF_cover k ks r X ih rest
              (fun c2 hl => hyp c2 (by rw [LForest.lookupKey, if_neg hkk]; exact hl))
              m hr with h | h
          · left; rw [deadNidsF]; exact List.mem_append.mpr (Or.inr h)
          · right; exact h

/-- Replacing a subtree: a dead id of the whole tree either stays dead in
the result, or was inside the replaced subtree and escapes into the set `X`
that the replacement is allowed to drop. -/
theorem deadT_setSub_cover : ∀ (a : Addr) (t r : LTree) (X : List Nat),
    (∀ s, t.get? a = some s → ∀ m, m ∈ deadNidsT s → m ∈ deadNidsT r ∨ m ∈ X) →
    ∀ m, m ∈ deadNidsT t → m ∈ deadNidsT (t.setSub a r) ∨ m ∈ X
  | [], t, r, X => by
      intro hyp m hm
      cases t with | node st ch => ?_
      rw [LTree.setSub]
      exact hyp (.node st ch) rfl m hm
  | k :: ks, .node st ch, r, X => by
      intro hyp m hm
      rw [LTree.setSub]
      rw [deadNidsT] at hm
      rcases List.mem_append.mp hm with hs | hch
      · left; rw [deadNidsT]; exact List.mem_append.mpr (Or.inl hs)
      · rcases deadF_setSubF_cover k ks r X (fun c => deadT_setSub_cover ks c r X) ch
            (fun c hl s hs => hyp s (by simp only [LTree.get?, hl]; exact hs)) m hch
            with h | h
        · left; rw [deadNidsT]; exact List.mem_append.mpr (Or.inr h)
        · right; exact h

/-- Replacing a subtree with one holding at least its dead ids preserves
deadness of the whole tree. -/
theorem deadT_setSub_mono (a : Addr) (t s r : LTree) (hget : t.get? a = some s)
    (hsub : ∀ m, m ∈ deadNidsT s → m ∈ deadNidsT r) :
    ∀ m, m ∈ deadNidsT t → m ∈ deadNidsT (t.setSub a r) := by
  intro m hm
  rcases deadT_setSub_cover a t r [] (fun s' hs' m' hm' => by
      rw [hget] at hs'
      cases hs'
      exact Or.inl (hsub m' hm')) m hm with h | h
  · exact h
  · simp at h

/-- A dead id of the replacement subtree is dead in the updated tree. -/
theorem deadT_setSub_of_repl (a : Addr) (t s r : LTree) (hget : t.get? a = some s) :
    ∀ m, m ∈ deadNidsT r → m ∈ deadNidsT (t.setSub a r) := fun m hm =>
  deadT_of_subtree a (t.setSub a r) r (LTree.get?_setSub a t s r hget) m hm

/-- Removing a key from a children map: a dead id survives or belonged to
the removed child. -/
theorem deadF_removeKey : ∀ (ch : LForest) (k : String) (m : Nat),
    m ∈ deadNidsF ch → m ∈ deadNidsF (ch.removeKey k) ∨
      ∃ c, ch.lookupKey k = some c ∧ m ∈ deadNidsT c
  | .nil, k, m => by intro hm; simp [deadNidsF] at hm
  | .cons k' c rest, k, m => by
      intro hm
      rw [deadNidsF] at hm
      rw [LForest.removeKey]
      by_cases hkk : k' = k
      · rw [if_pos hkk]
        rcases List.mem_append.mp hm with hc | hr
        · exact Or.inr ⟨c, by rw [LForest.lookupKey, if_pos hkk], hc⟩
        · exact Or.inl hr
      · rw [if_neg hkk]
        rcases List.mem_append.mp hm with hc | hr
        · exact Or.inl (by rw [deadNidsF]; exact List.mem_append.mpr (Or.inl hc))
        · rcases deadF_removeKey rest k m hr with h | ⟨c2, hl, hc2⟩
          · exact Or.inl (by rw [deadNidsF]; exact List.mem_append.mpr (Or.inr h))
          · exact Or.inr ⟨c2, by rw [LForest.lookupKey, if_neg hkk]; exact hl, hc2⟩

/-- Appending a child at the end of a children map appends its dead ids. -/
theorem deadF_push : ∀ (ch : LForest) (k : String) (c : LTree),
    deadNidsF (ch.push k c) = deadNidsF ch ++ deadNidsT c
  | .nil, k, c => by simp [LForest.push, deadNidsF]
  | .cons k' c' rest, k, c => by
      rw [LForest.push, deadNidsF, deadNidsF, deadF_push rest k c,
        List.append_assoc]

/-- Cache removal at the root leaves the dead ids unchanged. -/
theorem deadT_removeCache (u : LTree) (d : List Nat) :
    deadNidsT (removeFromRootCache u d) = deadNidsT u := by
  cases u with | node st ch => rfl

mutual
/-- The first `die` walk leaves the dead ids unchanged. -/
theorem walkAbout_deadT : ∀ (s : LTree), deadNidsT (walkAboutT s).2 = deadNidsT s
  | .node st ch => by
      rcases hw : walkAboutF ch with ⟨evs, ch'⟩
      have h := walkAbout_deadF ch
      rw [hw] at h
      simp only at h
      simp [walkAboutT, hw, deadNidsT, h, aboutToDieInfo]
/-- Forest form of `walkAbout_deadT`. -/
theorem walkAbout_deadF : ∀ (f : LForest), deadNidsF (walkAboutF f).2 = deadNidsF f
  | .nil => rfl
  | .cons k c rest => by
      rcases hwc : walkAboutT c with ⟨e1, c'⟩
      rcases hwr : walkAboutF rest with ⟨e2, rest'⟩
      have h1 := walkAbout_deadT c
      have h2 := walkAbout_deadF rest
      rw [hwc] at h1
      rw [hwr] at h2
      simp only at h1 h2
      cases hm : c.info.isMutableF <;>
        simp [walkAboutF, hwc, hwr, deadNidsF, h1, h2, hm]
end

mutual
/-- The second `die` walk only adds dead ids. -/
theorem walkFinal_deadT : ∀ (s : LTree) (m : Nat),
    m ∈ deadNidsT s → m ∈ deadNidsT (walkFinalT s).2.1
  | .node st ch => by
      intro m hm
      rcases hw : walkFinalF ch with ⟨evs, ch', ds⟩
      rw [deadNidsT] at hm
      simp only [walkFinalT, hw, deadNidsT]
      rcases List.mem_append.mp hm with hs | hch
      · cases ha : st.isAliveF with
        | true => rw [ha] at hs; simp at hs
        | false =>
            rw [ha] at hs
            refine List.mem_append.mpr (Or.inl ?_)
            simpa [finalizeNInfo] using hs
      · have h := walkFinal_deadF ch m hch
        rw [hw] at h
        exact List.mem_append.mpr (Or.inr h)
/-- Forest form of `walkFinal_deadT`. -/
theorem walkFinal_deadF : ∀ (f : LForest) (m : Nat),
    m ∈ deadNidsF f → m ∈ deadNidsF (walkFinalF f).2.1
  | .nil => by intro m hm; simp [deadNidsF] at hm
  | .cons k c rest => by
      intro m hm
      rcases hwc : walkFinalT c with ⟨e1, c', d1⟩
      rcases hwr : walkFinalF rest with ⟨e2, rest', d2⟩
      rw [deadNidsF] at hm
      have h1 := walkFinal_deadT c m
      have h2 := walkFinal_deadF rest m
      rw [hwc] at h1
      rw [hwr] at h2
      simp only at h1 h2
      cases hmut : c.info.isMutableF with
      | false =>
          simp only [walkFinalF, hwr, hmut, cond_false, deadNidsF]
          rcases List.mem_append.mp hm with hc | hr
          · exact List.mem_append.mpr (Or.inl hc)
          · exact List.mem_append.mpr (Or.inr (h2 hr))
      | true =>
          simp only [walkFinalF, hwc, hwr, hmut, cond_true, deadNidsF]
          rcases List.mem_append.mp hm with hc | hr
          · exact List.mem_append.mpr (Or.inl (h1 hc))
          · exact List.mem_append.mpr (Or.inr (h2 hr))
end

/-- `die()` never revives a node: the dead ids of the tree are preserved. -/
theorem die_dead_mono (t : LTree) (a : Addr) (t' : LTree) (evs : List LEvent)
    (h : dieAt t a = .ok (t', evs)) : ∀ m, m ∈ deadNidsT t → m ∈ deadNidsT t' := by
  intro m hm
  rw [dieAt] at h
  cases hget : t.get? a with
  | none => rw [hget] at h; exact absurd h (by simp)
  | some s =>
      simp only [hget] at h
      by_cases h1 : s.info.isMutableF = false
      · rw [if_pos h1] at h
        cases h
        exact hm
      · rw [if_neg h1] at h
        by_cases h2 : s.info.isDetachingF = true
        · rw [if_pos h2] at h
          cases h
          exact hm
        · rw [if_neg h2] at h
          rcases hwa : walkAboutT s with ⟨e1, s1⟩
          rcases hwf : walkFinalT s1 with ⟨e2, s2, died⟩
          simp only [hwa, hwf] at h
          cases h
          rw [deadT_removeCache]
          refine deadT_setSub_mono a t s s2 hget (fun m' hm' => ?_) m hm
          have hA := walkAbout_deadT s
          rw [hwa] at hA
          simp only at hA
          have hB := walkFinal_deadT s1 m'
          rw [hwf] at hB
          simp only at hB
          exact hB (by rwa [hA])



/-- Replacing the subtree at the empty address is replacing the whole tree. -/
theorem LTree.setSub_nil (t r : LTree) : t.setSub [] r = r := by
  cases t with | node st ch => rfl

/-- `detach()` never revives a node: the dead ids of a well-keyed forest are
preserved. -/
theorem detach_dead_mono (f : Forest) (i : Nat) (a : Addr) (f' : Forest)
    (evs : List LEvent) (t : LTree) (hT : f[i]? = some t)
    (hwf : wfKeysT t = true) (h : detachAt f i a = .ok (f', evs)) :
    ∀ n, n ∈ deadNids f → n ∈ deadNids f' := by
  intro n hn
  obtain ⟨hilen, hfi⟩ := List.getElem?_eq_some_iff.mp hT
  simp only [detachAt, hT] at h
  cases hS : t.get? a with
  | none => rw [hS] at h; exact absurd h (by simp)
  | some s =>
      simp only [hS] at h
      by_cases hdead : s.info.isAliveF = false
      · rw [if_pos hdead] at h; exact absurd h (by simp)
      rw [if_neg hdead] at h
      by_cases hnil : a = []
      · rw [if_pos hnil] at h
        cases h
        exact hn
      rw [if_neg hnil] at h
      obtain ⟨pa, k, rfl⟩ : ∃ pa k, a = pa ++ [k] :=
        ⟨a.dropLast, a.getLast hnil, (List.dropLast_append_getLast hnil).symm⟩
      have hroot : ptrRootAddr t (pa ++ [k]) = [] := ptrRootAddr_of_wf t s _ hwf hS
      have htk : (pa ++ [k]).take pa.length = pa := List.take_left pa [k]
      obtain ⟨parent, hpar⟩ := wf_get_take (pa ++ [k]) t s hS pa.length
      rw [htk] at hpar
      cases parent with | node pst pch => ?_
      have hSk : pch.lookupKey k = some s := by
        have h2 := hS
        rw [LTree.get?_append, hpar] at h2
        simp only [Option.some_bind] at h2
        rw [LTree.get?] at h2
        cases hl : pch.lookupKey k with
        | none => rw [hl] at h2; exact absurd h2 (by simp)
        | some c =>
            simp only [hl] at h2
            have hc0 : c.get? [] = some c := by cases c with | node x y => rfl
            rw [hc0] at h2
            simpa using h2
      have hwfp : wfKeysF pch = true := by
        have := (wf_get_props pa t (.node pst pch) hwf hpar).1
        simpa [wfKeysT] using this
      obtain ⟨hsub, _, _⟩ := wfKeysF_lookup pch k s hwfp hSk
      cases t with | node rst rch => ?_
      cases s with | node sst sch => ?_
      simp only [LTree.info] at hsub hdead
      have halive : sst.isAliveF = true := by
        cases hx : sst.isAliveF with
        | true => rfl
        | false => exact absurd hx hdead
      cases hcf : rst.cacheF with
      | none =>
          rw [hroot] at h
          rw [show infoAt (LTree.node rst rch) [] = rst from rfl] at h
          rw [hcf] at h
          exact absurd h (by simp)
      | some rc =>
          rw [hroot] at h
          rw [show infoAt (LTree.node rst rch) [] = rst from rfl] at h
          rw [hcf] at h
          simp only [List.dropLast_concat, LTree.setSub_nil, childrenAt, LTree.get?,
            LTree.childrenF, LTree.info, hsub] at h
          obtain ⟨q, hq, hqch, hqwf⟩ :=
            get?_root_info_change pa rst { rst with
              cacheF := some (rc.filter fun x =>
                !(allNidsT (LTree.node sst sch)).contains x) } rch
              (.node pst pch) hpar
          cases q with | node qst qch => ?_
          have hqch2 : qch = pch := hqch
          subst hqch2
          -- reduce the inner match in `h` using `hq`
          split at h
          rotate_left
          · rename_i heq
            rw [hq] at heq
            exact absurd heq (by simp)
          rename_i pst2 pch2 heq
          rw [hq] at heq
          simp only [Option.some.injEq, LTree.node.injEq] at heq
          obtain ⟨he1, he2⟩ := heq
          subst he1
          subst he2
          cases h
          -- membership of the dead id in the new forest
          obtain ⟨m, hm, hdm⟩ := exists_of_mem_deadNids hn
          by_cases hmi : m = i
          · subst hmi
            rw [hfi] at hdm
            have hdt : n ∈ deadNidsT (LTree.node { rst with
                cacheF := some (rc.filter fun x =>
                  !(allNidsT (LTree.node sst sch)).contains x) } rch) := hdm
            rcases deadT_setSub_cover pa _ (.node qst (qch.removeKey k))
                (deadNidsF sch) (fun s2 hs2 m2 hm2 => by
                  rw [hq] at hs2
                  cases hs2
                  rw [deadNidsT] at hm2
                  rcases List.mem_append.mp hm2 with ht1 | ht2
                  · exact Or.inl (by
                      rw [deadNidsT]
                      exact List.mem_append.mpr (Or.inl ht1))
                  · rcases deadF_removeKey qch k m2 ht2 with hx | ⟨c2, hl2, hc2⟩
                    · exact Or.inl (by
                        rw [deadNidsT]
                        exact List.mem_append.mpr (Or.inr hx))
                    · rw [hSk] at hl2
                      cases hl2
                      rw [deadNidsT, halive] at hc2
                      exact Or.inr (by simpa using hc2)) n hdt with hx | hx
            · exact mem_deadNids_of_mem
                (List.mem_append.mpr (Or.inl (mem_set_self f m _ hilen))) hx
            · exact mem_deadNids_of_mem
                (List.mem_append.mpr (Or.inr (List.mem_singleton_self _)))
                (by rw [deadNidsT]; exact List.mem_append.mpr (Or.inr hx))
          · exact mem_deadNids_of_mem
              (List.mem_append.mpr (Or.inl (mem_set_of_ne f i _ m hm hmi))) hdm

/-- The subpath-only update branches of `setParent` preserve dead ids. -/
theorem dead_mono_subpath_set (f : Forest) (i : Nat) (a : Addr) (t : LTree)
    (sst : NInfo) (sch : LForest) (v : String)
    (hT : f[i]? = some t) (hS : t.get? a = some (.node sst sch)) :
    ∀ n, n ∈ deadNids f →
      n ∈ deadNids (f.set i (t.setSub a (.node { sst with subpathF := v } sch))) := by
  intro n hn
  obtain ⟨hilen, hfi⟩ := List.getElem?_eq_some_iff.mp hT
  obtain ⟨m, hm, hdm⟩ := exists_of_mem_deadNids hn
  by_cases hmi : m = i
  · subst hmi
    rw [hfi] at hdm
    refine mem_deadNids_of_mem (mem_set_self f m _ hilen) ?_
    refine deadT_setSub_mono a t _ _ hS ?_ n hdm
    intro m2 hm2
    rw [deadNidsT] at hm2 ⊢
    exact hm2
  · exact mem_deadNids_of_mem (mem_set_of_ne f i _ m hm hmi) hdm

/-- `setParent` never revives a node: the dead ids of the forest are
preserved by every successful call. -/
theorem setParent_dead_mono (f : Forest) (r : Ref) (np : Option Ref)
    (sub : Option String) (f' : Forest) (evs : List LEvent)
    (h : setParentM f r np sub = .ok (f', evs)) :
    ∀ n, n ∈ deadNids f → n ∈ deadNids f' := by
  intro n hn
  cases hT : f[r.1]? with
  | none => simp only [setParentM, hT] at h; exact absurd h (by simp)
  | some t => ?_
  cases hS : t.get? r.2 with
  | none => simp only [setParentM, hT, hS] at h; exact absurd h (by simp)
  | some s => ?_
  cases s with | node sst sch => ?_
  obtain ⟨hilen, hfi⟩ := List.getElem?_eq_some_iff.mp hT
  cases np with
  | none =>
      cases sub with
      | none =>
          simp only [setParentM, hT, hS, LTree.info, LTree.childrenF, Option.getD] at h
          by_cases hc1 : ((if (!List.isEmpty r.2 && !sst.parentNullF) = true then
                some (r.1, List.dropLast r.2) else none) == (none : Option Ref) && false) = true
          · rw [if_pos hc1] at h
            cases h
            exact hn
          rw [if_neg hc1] at h
          by_cases hhp : (!List.isEmpty r.2 && !sst.parentNullF) = true
          · rw [if_pos hhp] at h
            cases hdie : dieAt t r.2 with
            | error e => simp only [hdie] at h; exact absurd h (by simp)
            | ok pr => ?_
            obtain ⟨t2, evs2⟩ := pr
            simp only [hdie] at h
            cases h
            obtain ⟨m, hm, hdm⟩ := exists_of_mem_deadNids hn
            by_cases hmi : m = r.1
            · subst hmi
              rw [hfi] at hdm
              refine mem_deadNids_of_mem (mem_set_self f r.1 _ hilen) ?_
              exact die_dead_mono _ _ _ _ hdie n hdm
            · exact mem_deadNids_of_mem (mem_set_of_ne f r.1 _ m hm hmi) hdm
          · rw [if_neg hhp] at h
            cases h
            exact dead_mono_subpath_set f r.1 r.2 t sst sch _ hT hS n hn
      | some sv =>
          simp only [setParentM, hT, hS, LTree.info, LTree.childrenF, Option.getD] at h
          by_cases hc1 : ((if (!List.isEmpty r.2 && !sst.parentNullF) = true then
                some (r.1, List.dropLast r.2) else none) == (none : Option Ref) && sst.subpathF == sv) = true
          · rw [if_pos hc1] at h
            cases h
            exact hn
          rw [if_neg hc1] at h
          by_cases hhp : (!List.isEmpty r.2 && !sst.parentNullF) = true
          · rw [if_pos hhp] at h
            cases hdie : dieAt t r.2 with
            | error e => simp only [hdie] at h; exact absurd h (by simp)
            | ok pr => ?_
            obtain ⟨t2, evs2⟩ := pr
            simp only [hdie] at h
            cases h
            obtain ⟨m, hm, hdm⟩ := exists_of_mem_deadNids hn
            by_cases hmi : m = r.1
            · subst hmi
              rw [hfi] at hdm
              refine mem_deadNids_of_mem (mem_set_self f r.1 _ hilen) ?_
              exact die_dead_mono _ _ _ _ hdie n hdm
            · exact mem_deadNids_of_mem (mem_set_of_ne f r.1 _ m hm hmi) hdm
          · rw [if_neg hhp] at h
            cases h
            exact dead_mono_subpath_set f r.1 r.2 t sst sch _ hT hS n hn
  | some npr =>
      cases sub with
      | none =>
          simp only [setParentM, hT, hS, LTree.info, LTree.childrenF, Option.getD] at h
          by_cases hc1 : ((if (!List.isEmpty r.2 && !sst.parentNullF) = true then
                some (r.1, List.dropLast r.2) else none) == some npr && false) = true
          · rw [if_pos hc1] at h
            cases h
            exact hn
          rw [if_neg hc1] at h
          by_cases hpfix : (!List.isEmpty r.2 && !sst.parentNullF &&
              npr != (r.1, List.dropLast r.2)) = true
          · rw [if_pos hpfix] at h
            exact absurd h (by simp)
          rw [if_neg hpfix] at h
          cases hTp : f[npr.1]? with
          | none => simp only [hTp] at h; exact absurd h (by simp)
          | some tp => ?_
          simp only [hTp] at h
          by_cases hself : (!(!List.isEmpty r.2 && !sst.parentNullF) &&
              (npr.1, ptrRootAddr tp npr.2) == r) = true
          · rw [if_pos hself] at h
            exact absurd h (by simp)
          rw [if_neg hself] at h
          by_cases henv : (!(!List.isEmpty r.2 && !sst.parentNullF) &&
                (infoAt t (ptrRootAddr t r.2)).envF.isSome &&
              (infoAt t (ptrRootAddr t r.2)).envF != (infoAt tp (ptrRootAddr tp npr.2)).envF) = true
          · rw [if_pos henv] at h
            exact absurd h (by simp)
          rw [if_neg henv] at h
          by_cases hsame : ((if (!List.isEmpty r.2 && !sst.parentNullF) = true then
              some (r.1, List.dropLast r.2) else none) == some npr) = true
          · rw [if_pos hsame] at h
            cases h
            exact dead_mono_subpath_set f r.1 r.2 t sst sch _ hT hS n hn
          rw [if_neg hsame] at h
          by_cases hguard : (!List.isEmpty r.2 || npr.1 == r.1) = true
          · rw [if_pos hguard] at h
            exact absurd h (by simp)
          rw [if_neg hguard] at h
          have hne : ¬ npr.1 = r.1 := by
            intro he
            apply hguard
            simp [he]
          have ht : t = LTree.node sst sch := by
            have hr2 : r.2 = [] := by
              cases hx : r.2 with
              | nil => rfl
              | cons y ys => rw [hx] at hguard; simp at hguard
            rw [hr2] at hS
            simpa [LTree.get?] using hS
          cases hcc : (infoAt tp (ptrRootAddr tp npr.2)).cacheF with
          | none => simp only [hcc] at h; exact absurd h (by simp)
          | some rootCache => ?_
          simp only [hcc] at h
          cases hTpc : tp.get? npr.2 with
          | none => simp only [hTpc] at h; exact absurd h (by simp)
          | some q => ?_
          cases q with | node npst npch => ?_
          simp only [hTpc] at h
          obtain ⟨hnplen, hfnp⟩ := List.getElem?_eq_some_iff.mp hTp
          have hkey : ∀ (T2 : LTree),
              (∀ x, x ∈ deadNidsT tp → x ∈ deadNidsT T2) →
              (∀ x, x ∈ deadNidsT (LTree.node sst sch) → x ∈ deadNidsT T2) →
              n ∈ deadNids ((f.set npr.1 T2).eraseIdx r.1) := by
            intro T2 hA hB
            obtain ⟨m, hm, hdm⟩ := exists_of_mem_deadNids hn
            by_cases hmnp : m = npr.1
            · subst hmnp
              rw [hfnp] at hdm
              exact mem_deadNids_of_mem
                (mem_set_eraseIdx f npr.1 T2 r.1 hnplen (fun he => hne he.symm)) (hA n hdm)
            · by_cases hmr : m = r.1
              · subst hmr
                rw [hfi, ht] at hdm
                exact mem_deadNids_of_mem
                  (mem_set_eraseIdx f npr.1 T2 r.1 hnplen (fun he => hne he.symm)) (hB n hdm)
              · have h1 := mem_eraseIdx_of_ne (f.set npr.1 T2) r.1 m (by simpa using hm) hmr
                rw [List.getElem_set_ne (by omega)] at h1
                exact mem_deadNids_of_mem h1 hdm
          have hA1 : ∀ x, x ∈ deadNidsT (LTree.node npst npch) →
              x ∈ deadNidsT (LTree.node npst (npch.push ""
                (LTree.node { sst with subpathF := "", parentNullF := false, cacheF := none } sch))) := by
            intro x hx
            rw [deadNidsT] at hx ⊢
            rcases List.mem_append.mp hx with h1 | h2
            · exact List.mem_append.mpr (Or.inl h1)
            · refine List.mem_append.mpr (Or.inr ?_)
              rw [deadF_push]
              exact List.mem_append.mpr (Or.inl h2)
          have hB1 : ∀ x, x ∈ deadNidsT (LTree.node sst sch) →
              x ∈ deadNidsT (LTree.node npst (npch.push ""
                (LTree.node { sst with subpathF := "", parentNullF := false, cacheF := none } sch))) := by
            intro x hx
            rw [deadNidsT]
            refine List.mem_append.mpr (Or.inr ?_)
            rw [deadF_push]
            refine List.mem_append.mpr (Or.inr ?_)
            rw [deadNidsT] at hx ⊢
            exact hx
          have hAt := deadT_setSub_mono npr.2 tp _ _ hTpc hA1
          have hBt : ∀ x, x ∈ deadNidsT (LTree.node sst sch) →
              x ∈ deadNidsT (tp.setSub npr.2 (LTree.node npst (npch.push ""
                (LTree.node { sst with subpathF := "", parentNullF := false, cacheF := none } sch)))) :=
            fun x hx => deadT_of_subtree npr.2 _ _
              (LTree.get?_setSub npr.2 tp _ _ hTpc) x (hB1 x hx)
          cases hR : (tp.setSub npr.2 (LTree.node npst (npch.push ""
              (LTree.node { sst with subpathF := "", parentNullF := false, cacheF := none } sch)))).get?
                (ptrRootAddr tp npr.2) with
          | none =>
              simp only [hR] at h
              cases h
              exact hkey _ hAt hBt
          | some q2 => ?_
          cases q2 with | node rst rch => ?_
          simp only [hR] at h
          cases h
          refine hkey _ (fun x hx => ?_) (fun x hx => ?_)
          · exact deadT_setSub_mono _ _ _ _ hR
              (fun y hy => by rw [deadNidsT] at hy ⊢; exact hy) x (hAt x hx)
          · exact deadT_setSub_mono _ _ _ _ hR
              (fun y hy => by rw [deadNidsT] at hy ⊢; exact hy) x (hBt x hx)
      | some sv =>
          simp only [setParentM, hT, hS, LTree.info, LTree.childrenF, Option.getD] at h
          by_cases hc1 : ((if (!List.isEmpty r.2 && !sst.parentNullF) = true then
                some (r.1, List.dropLast r.2) else none) == some npr && sst.subpathF == sv) = true
          · rw [if_pos hc1] at h
            cases h
            exact hn
          rw [if_neg hc1] at h
          by_cases hpfix : (!List.isEmpty r.2 && !sst.parentNullF &&
              npr != (r.1, List.dropLast r.2)) = true
          · rw [if_pos hpfix] at h
            exact absurd h (by simp)
          rw [if_neg hpfix] at h
          cases hTp : f[npr.1]? with
          | none => simp only [hTp] at h; exact absurd h (by simp)
          | some tp => ?_
          simp only [hTp] at h
          by_cases hself : (!(!List.isEmpty r.2 && !sst.parentNullF) &&
              (npr.1, ptrRootAddr tp npr.2) == r) = true
          · rw [if_pos hself] at h
            exact absurd h (by simp)
          rw [if_neg hself] at h
          by_cases henv : (!(!List.isEmpty r.2 && !sst.parentNullF) &&
                (infoAt t (ptrRootAddr t r.2)).envF.isSome &&
              (infoAt t (ptrRootAddr t r.2)).envF != (infoAt tp (ptrRootAddr tp npr.2)).envF) = true
          · rw [if_pos henv] at h
            exact absurd h (by simp)
          rw [if_neg henv] at h
          by_cases hsame : ((if (!List.isEmpty r.2 && !sst.parentNullF) = true then
              some (r.1, List.dropLast r.2) else none) == some npr) = true
          · rw [if_pos hsame] at h
            cases h
            exact dead_mono_subpath_set f r.1 r.2 t sst sch _ hT hS n hn
          rw [if_neg hsame] at h
          by_cases hguard : (!List.isEmpty r.2 || npr.1 == r.1) = true
          · rw [if_pos hguard] at h
            exact absurd h (by simp)
          rw [if_neg hguard] at h
          have hne : ¬ npr.1 = r.1 := by
            intro he
            apply hguard
            simp [he]
          have ht : t = LTree.node sst sch := by
            have hr2 : r.2 = [] := by
              cases hx : r.2 with
              | nil => rfl
              | cons y ys => rw [hx] at hguard; simp at hguard
            rw [hr2] at hS
            simpa [LTree.get?] using hS
          cases hcc : (infoAt tp (ptrRootAddr tp npr.2)).cacheF with
          | none => simp only [hcc] at h; exact absurd h (by simp)
          | some rootCache => ?_
          simp only [hcc] at h
          cases hTpc : tp.get? npr.2 with
          | none => simp only [hTpc] at h; exact absurd h (by simp)
          | some q => ?_
          cases q with | node npst npch => ?_
          simp only [hTpc] at h
          obtain ⟨hnplen, hfnp⟩ := List.getElem?_eq_some_iff.mp hTp
          have hkey : ∀ (T2 : LTree),
              (∀ x, x ∈ deadNidsT tp → x ∈ deadNidsT T2) →
              (∀ x, x ∈ deadNidsT (LTree.node sst sch) → x ∈ deadNidsT T2) →
              n ∈ deadNids ((f.set npr.1 T2).eraseIdx r.1) := by
            intro T2 hA hB
            obtain ⟨m, hm, hdm⟩ := exists_of_mem_deadNids hn
            by_cases hmnp : m = npr.1
            · subst hmnp
              rw [hfnp] at hdm
              exact mem_deadNids_of_mem
                (mem_set_eraseIdx f npr.1 T2 r.1 hnplen (fun he => hne he.symm)) (hA n hdm)
            · by_cases hmr : m = r.1
              · subst hmr
                rw [hfi, ht] at hdm
                exact mem_deadNids_of_mem
                  (mem_set_eraseIdx f npr.1 T2 r.1 hnplen (fun he => hne he.symm)) (hB n hdm)
              · have h1 := mem_eraseIdx_of_ne (f.set npr.1 T2) r.1 m (by simpa using hm) hmr
                rw [List.getElem_set_ne (by omega)] at h1
                exact mem_deadNids_of_mem h1 hdm
          have hA1 : ∀ x, x ∈ deadNidsT (LTree.node npst npch) →
              x ∈ deadNidsT (LTree.node npst (npch.push sv
                (LTree.node { sst with subpathF := sv, parentNullF := false, cacheF := none } sch))) := by
            intro x hx
            rw [deadNidsT] at hx ⊢
            rcases List.mem_append.mp hx with h1 | h2
            · exact List.mem_append.mpr (Or.inl h1)
            · refine List.mem_append.mpr (Or.inr ?_)
              rw [deadF_push]
              exact List.mem_append.mpr (Or.inl h2)
          have hB1 : ∀ x, x ∈ deadNidsT (LTree.node sst sch) →
              x ∈ deadNidsT (LTree.node npst (npch.push sv
                (LTree.node { sst with subpathF := sv, parentNullF := false, cacheF := none } sch))) := by
            intro x hx
            rw [deadNidsT]
            refine List.mem_append.mpr (Or.inr ?_)
            rw [deadF_push]
            refine List.mem_append.mpr (Or.inr ?_)
            rw [deadNidsT] at hx ⊢
            exact hx
          have hAt := deadT_setSub_mono npr.2 tp _ _ hTpc hA1
          have hBt : ∀ x, x ∈ deadNidsT (LTree.node sst sch) →
              x ∈ deadNidsT (tp.setSub npr.2 (LTree.node npst (npch.push sv
                (LTree.node { sst with subpathF := sv, parentNullF := false, cacheF := none } sch)))) :=
            fun x hx => deadT_of_subtree npr.2 _ _
              (LTree.get?_setSub npr.2 tp _ _ hTpc) x (hB1 x hx)
          cases hR : (tp.setSub npr.2 (LTree.node npst (npch.push sv
              (LTree.node { sst with subpathF := sv, parentNullF := false, cacheF := none } sch)))).get?
                (ptrRootAddr tp npr.2) with
          | none =>
              simp only [hR] at h
              cases h
              exact hkey _ hAt hBt
          | some q2 => ?_
          cases q2 with | node rst rch => ?_
          simp only [hR] at h
          cases h
          refine hkey _ (fun x hx => ?_) (fun x hx => ?_)
          · exact deadT_setSub_mono _ _ _ _ hR
              (fun y hy => by rw [deadNidsT] at hy ⊢; exact hy) x (hAt x hx)
          · exact deadT_setSub_mono _ _ _ _ hR
              (fun y hy => by rw [deadNidsT] at hy ⊢; exact hy) x (hBt x hx)


/-- Replacing only the node state at an address, with deadness preserved and
the node id unchanged, preserves the dead ids of the tree. -/
theorem deadT_setSub_info (a : Addr) (t : LTree) (st st2 : NInfo) (ch : LForest)
    (hget : t.get? a = some (.node st ch))
    (hal : st.isAliveF = false → st2.isAliveF = false) (hnid : st2.nid = st.nid) :
    ∀ m, m ∈ deadNidsT t → m ∈ deadNidsT (t.setSub a (.node st2 ch)) := by
  refine deadT_setSub_mono a t _ _ hget ?_
  intro m hm
  rw [deadNidsT] at hm ⊢
  rcases List.mem_append.mp hm with h1 | h2
  · refine List.mem_append.mpr (Or.inl ?_)
    cases hA : st.isAliveF with
    | true => rw [hA] at h1; simp at h1
    | false =>
        rw [hA] at h1
        rw [hal hA, hnid]
        simpa using h1
  · exact List.mem_append.mpr (Or.inr h2)

/-- A single-tree operation that preserves dead ids lifts to the forest. -/
theorem liftTreeOp_dead_mono (f : Forest) (i : Nat)
    (op : LTree → Except MErr (LTree × List LEvent)) (f' : Forest) (evs : List LEvent)
    (hop : ∀ t t2 e2, op t = .ok (t2, e2) → ∀ m, m ∈ deadNidsT t → m ∈ deadNidsT t2)
    (h : liftTreeOp f i op = .ok (f', evs)) :
    ∀ n, n ∈ deadNids f → n ∈ deadNids f' := by
  intro n hn
  simp only [liftTreeOp] at h
  cases hT : f[i]? with
  | none => simp only [hT] at h; exact absurd h (by simp)
  | some t => ?_
  simp only [hT] at h
  cases hop2 : op t with
  | error e => simp only [hop2] at h; exact absurd h (by simp)
  | ok pr => ?_
  obtain ⟨t2, e2⟩ := pr
  simp only [hop2] at h
  cases h
  obtain ⟨hilen, hfi⟩ := List.getElem?_eq_some_iff.mp hT
  obtain ⟨m, hm, hdm⟩ := exists_of_mem_deadNids hn
  by_cases hmi : m = i
  · subst hmi
    rw [hfi] at hdm
    exact mem_deadNids_of_mem (mem_set_self f m _ hilen) (hop t t2 _ hop2 n hdm)
  · exact mem_deadNids_of_mem (mem_set_of_ne f i _ m hm hmi) hdm


/-- `aboutToDie()` preserves the dead ids of the tree. -/
theorem aboutToDie_dead_mono (t : LTree) (a : Addr) (t2 : LTree) (e2 : List LEvent)
    (h : aboutToDieM t a = .ok (t2, e2)) : ∀ m, m ∈ deadNidsT t → m ∈ deadNidsT t2 := by
  intro m hm
  simp only [aboutToDieM] at h
  cases hget : t.get? a with
  | none => simp only [hget] at h; exact absurd h (by simp)
  | some s => ?_
  cases s with | node st ch => ?_
  simp only [hget] at h
  by_cases him : st.isMutableF = false
  · rw [if_pos him] at h
    exact absurd h (by simp)
  rw [if_neg him] at h
  cases h
  refine deadT_setSub_info a t st _ ch hget ?_ ?_ m hm
  · exact fun hA => hA
  · rfl


/-- `finalizeDeath()` preserves the dead ids of the tree. -/
theorem finalizeDeath_dead_mono (t : LTree) (a : Addr) (t2 : LTree) (e2 : List LEvent)
    (h : finalizeDeathM t a = .ok (t2, e2)) : ∀ m, m ∈ deadNidsT t → m ∈ deadNidsT t2 := by
  intro m hm
  simp only [finalizeDeathM] at h
  cases hget : t.get? a with
  | none => simp only [hget] at h; exact absurd h (by simp)
  | some s => ?_
  cases s with | node st ch => ?_
  simp only [hget] at h
  by_cases him : st.isMutableF = false
  · rw [if_pos him] at h
    exact absurd h (by simp)
  rw [if_neg him] at h
  cases h
  rw [deadT_removeCache]
  refine deadT_setSub_info a t st _ ch hget ?_ ?_ m hm
  · exact fun hA => rfl
  · rfl


/-- `addDisposer(d)` preserves the dead ids of the tree. -/
theorem addDisposer_dead_mono (t : LTree) (a : Addr) (d : Nat) (t2 : LTree) (e2 : List LEvent)
    (h : addDisposerM t a d = .ok (t2, e2)) : ∀ m, m ∈ deadNidsT t → m ∈ deadNidsT t2 := by
  intro m hm
  simp only [addDisposerM] at h
  cases hget : t.get? a with
  | none => simp only [hget] at h; exact absurd h (by simp)
  | some s => ?_
  cases s with | node st ch => ?_
  simp only [hget] at h
  by_cases him : st.isMutableF = false
  · rw [if_pos him] at h
    exact absurd h (by simp)
  rw [if_neg him] at h
  cases h
  refine deadT_setSub_info a t st _ ch hget ?_ ?_ m hm
  · exact fun hA => hA
  · rfl


/-- `onPatch(handler)` preserves the dead ids of the tree. -/
theorem onPatch_dead_mono (t : LTree) (a : Addr) (hd : Nat) (t2 : LTree) (e2 : List LEvent)
    (h : onPatchM t a hd = .ok (t2, e2)) : ∀ m, m ∈ deadNidsT t → m ∈ deadNidsT t2 := by
  intro m hm
  simp only [onPatchM] at h
  cases hget : t.get? a with
  | none => simp only [hget] at h; exact absurd h (by simp)
  | some s => ?_
  cases s with | node st ch => ?_
  simp only [hget] at h
  by_cases him : st.isMutableF = false
  · rw [if_pos him] at h
    exact absurd h (by simp)
  rw [if_neg him] at h
  cases h
  refine deadT_setSub_info a t st _ ch hget ?_ ?_ m hm
  · exact fun hA => hA
  · rfl


/-- `onSnapshot(handler)` preserves the dead ids of the tree. -/
theorem onSnapshot_dead_mono (t : LTree) (a : Addr) (hd : Nat) (t2 : LTree) (e2 : List LEvent)
    (h : onSnapshotM t a hd = .ok (t2, e2)) : ∀ m, m ∈ deadNidsT t → m ∈ deadNidsT t2 := by
  intro m hm
  simp only [onSnapshotM] at h
  cases hget : t.get? a with
  | none => simp only [hget] at h; exact absurd h (by simp)
  | some s => ?_
  cases s with | node st ch => ?_
  simp only [hget] at h
  by_cases him : st.isMutableF = false
  · rw [if_pos him] at h
    exact absurd h (by simp)
  rw [if_neg him] at h
  cases h
  refine deadT_setSub_info a t st _ ch hget ?_ ?_ m hm
  · exact fun hA => hA
  · rfl


/-- `addMiddleWare(handler)` preserves the dead ids of the tree. -/
theorem addMiddleWare_dead_mono (t : LTree) (a : Addr) (hd : Nat) (t2 : LTree) (e2 : List LEvent)
    (h : addMiddleWareM t a hd = .ok (t2, e2)) : ∀ m, m ∈ deadNidsT t → m ∈ deadNidsT t2 := by
  intro m hm
  simp only [addMiddleWareM] at h
  cases hget : t.get? a with
  | none => simp only [hget] at h; exact absurd h (by simp)
  | some s => ?_
  cases s with | node st ch => ?_
  simp only [hget] at h
  by_cases him : st.isMutableF = false
  · rw [if_pos him] at h
    exact absurd h (by simp)
  rw [if_neg him] at h
  cases h
  refine deadT_setSub_info a t st _ ch hget ?_ ?_ m hm
  · exact fun hA => hA
  · rfl


/-- Every operation of the transition system preserves the dead ids of a
well-keyed forest. -/
theorem applyOp_dead_mono (op : MOp) (f f' : Forest) (evs : List LEvent)
    (hwf : wfKeys f = true) (h : applyOp op f = .ok (f', evs)) :
    ∀ n, n ∈ deadNids f → n ∈ deadNids f' := by
  cases op with
  | setP r np sub => exact setParent_dead_mono f r np sub f' evs h
  | detachOp r =>
      cases hT : f[r.1]? with
      | none =>
          intro n hn
          simp only [applyOp, detachAt, hT] at h
          exact absurd h (by simp)
      | some t => ?_
      have htmem : t ∈ f := by
        obtain ⟨hl, he⟩ := List.getElem?_eq_some_iff.mp hT
        exact he ▸ List.getElem_mem _
      have hwt : wfKeysT t = true := List.all_eq_true.mp hwf t htmem
      exact detach_dead_mono f r.1 r.2 f' evs t hT hwt h
  | dieOp r =>
      exact liftTreeOp_dead_mono f r.1 _ f' evs
        (fun t t2 e2 hh => die_dead_mono t r.2 t2 e2 hh) h
  | addDisp r d =>
      exact liftTreeOp_dead_mono f r.1 _ f' evs
        (fun t t2 e2 hh => addDisposer_dead_mono t r.2 d t2 e2 hh) h
  | aboutToDieOp r =>
      exact liftTreeOp_dead_mono f r.1 _ f' evs
        (fun t t2 e2 hh => aboutToDie_dead_mono t r.2 t2 e2 hh) h
  | finalizeDeathOp r =>
      exact liftTreeOp_dead_mono f r.1 _ f' evs
        (fun t t2 e2 hh => finalizeDeath_dead_mono t r.2 t2 e2 hh) h
  | regPatch r hd =>
      exact liftTreeOp_dead_mono f r.1 _ f' evs
        (fun t t2 e2 hh => onPatch_dead_mono t r.2 hd t2 e2 hh) h
  | regSnapshot r hd =>
      exact liftTreeOp_dead_mono f r.1 _ f' evs
        (fun t t2 e2 hh => onSnapshot_dead_mono t r.2 hd t2 e2 hh) h
  | regMiddleware r hd =>
      exact liftTreeOp_dead_mono f r.1 _ f' evs
        (fun t t2 e2 hh => addMiddleWare_dead_mono t r.2 hd t2 e2 hh) h

/-- C8 (amended): deadness is permanent — every state-changing operation of
`node.ts` (`setParent`, `detach`, `die`, `aboutToDie`, `finalizeDeath`,
`addDisposer` and the three subscriber registrations) preserves the dead
node ids of a well-keyed forest — and structurally accessing a dead node via
`getChildNode` / `getChildren` raises `DeadNodeError`; however reading a
dead node's `value` returns `undefined` rather than raising, and reading its
`snapshot` yields the frozen last snapshot installed by `finalizeDeath`
(`addReadOnlyProp`), also without raising. -/
theorem dead_stays_dead :
    (∀ (op : MOp) (f f' : Forest) (evs : List LEvent), wfKeys f = true →
        applyOp op f = .ok (f', evs) → ∀ n, n ∈ deadNids f → n ∈ deadNids f') ∧
    (∀ (t : LTree) (a : Addr) (st : NInfo) (ch : LForest) (k : String),
        t.get? a = some (.node st ch) → st.isAliveF = false →
        getChildNodeM t a k = .error (.deadNode st.nid) ∧
        getChildrenM t a = .error (.deadNode st.nid)) ∧
    (∀ (t : LTree) (a : Addr) (st : NInfo) (ch : LForest),
        t.get? a = some (.node st ch) → st.isAliveF = false →
        nodeValue t a = .ok none ∧ nodeSnapshot t a = .ok (snapshotView st)) := by
  refine ⟨fun op f f' evs hwf h => applyOp_dead_mono op f f' evs hwf h, ?_, ?_⟩
  · intro t a st ch k hget hdead
    constructor
    · simp [getChildNodeM, hget, hdead]
    · simp [getChildrenM, hget, hdead]
  · intro t a st ch hget hdead
    constructor
    · simp [nodeValue, hget, hdead, LTree.info]
    · simp [nodeSnapshot, hget, LTree.info]

/-- C8 counterexample (to "any access to a dead node raises a
DeadNodeError: in particular reading a dead node's value or snapshot ...
raises rather than returning a value"): on a dead node, `value` returns
`undefined` and `snapshot` returns the frozen last snapshot; neither
raises. -/
theorem dead_value_returns_undefined :
    deadT.info.isAliveF = false ∧
    nodeValue deadT [] = .ok none ∧
    nodeSnapshot deadT [] = .ok (some (.prim "s")) :=
  ⟨rfl, rfl, rfl⟩

/-- C8 witness: a concrete run — `addDisposer` on the live forest
`[deadT, fixT]` keeps node `4` dead, and the dead node's accessors behave
as stated. -/
theorem dead_stays_dead_holds :
    wfKeys [deadT, fixT] = true ∧
    applyOp (.addDisp (1, ["x"]) 7) [deadT, fixT] = .ok ([deadT, fixTD7], []) ∧
    4 ∈ deadNids [deadT, fixT] ∧
    4 ∈ deadNids [deadT, fixTD7] ∧
    getChildNodeM deadT [] "x" = .error (.deadNode 4) ∧
    getChildrenM deadT [] = .error (.deadNode 4) ∧
    nodeValue deadT [] = .ok none ∧
    nodeSnapshot deadT [] = .ok (some (.prim "s")) :=
  ⟨by decide, by rfl, by decide,
   dead_stays_dead.1 (.addDisp (1, ["x"]) 7) [deadT, fixT] [deadT, fixTD7] []
     (by decide) (by rfl) 4 (by decide),
   (dead_stays_dead.2.1 deadT [] _ _ "x" rfl rfl).1,
   (dead_stays_dead.2.1 deadT [] _ _ "x" rfl rfl).2,
   (dead_stays_dead.2.2 deadT [] _ _ rfl rfl).1,
   (dead_stays_dead.2.2 deadT [] _ _ rfl rfl).2⟩

/-- Every character produces a nonempty escape. -/
theorem escChar_ne_nil (d : Char) : ∃ x xs, escChar d = x :: xs := by
  unfold escChar
  by_cases h1 : d = '~'
  · exact ⟨'~', ['0'], by simp [h1]⟩
  by_cases h2 : d = '/'
  · exact ⟨'~', ['1'], by simp [h1, h2]⟩
  · exact ⟨d, [], by simp [h1, h2]⟩

/-- The escape of a character never contains a separator. -/
theorem escChar_no_slash (c x : Char) (hx : x ∈ escChar c) : x ≠ '/' := by
  intro he
  subst he
  unfold escChar at hx
  by_cases h1 : c = '~'
  · rw [if_pos h1] at hx
    exact absurd hx (by decide)
  by_cases h2 : c = '/'
  · rw [if_neg h1, if_pos h2] at hx
    exact absurd hx (by decide)
  · rw [if_neg h1, if_neg h2] at hx
    simp at hx
    exact h2 hx.symm

/-- Unescaping inverts the character-level escaping. -/
theorem unescChars_flatMap : ∀ cs : List Char, unescChars (cs.flatMap escChar) = cs
  | [] => rfl
  | c :: cs => by
      by_cases h1 : c = '~'
      · subst h1
        rw [List.flatMap_cons, show escChar '~' = ['~', '0'] from rfl,
          List.cons_append, List.cons_append, List.nil_append]
        rw [unescChars, if_pos rfl, if_neg (by decide), if_pos rfl,
          unescChars_flatMap cs]
      by_cases h2 : c = '/'
      · subst h2
        rw [List.flatMap_cons, show escChar '/' = ['~', '1'] from rfl,
          List.cons_append, List.cons_append, List.nil_append]
        rw [unescChars, if_pos rfl, if_pos rfl, unescChars_flatMap cs]
      · rw [List.flatMap_cons, show escChar c = [c] from by simp [escChar, h1, h2],
          List.singleton_append]
        cases hcs : cs with
        | nil => rfl
        | cons d ds =>
            obtain ⟨x, xs, hx⟩ := escChar_ne_nil d
            rw [List.flatMap_cons, hx, List.cons_append]
            rw [unescChars, if_neg h1]
            have hback : x :: (xs ++ ds.flatMap escChar) =
                (d :: ds).flatMap escChar := by
              rw [List.flatMap_cons, hx, List.cons_append]
            rw [hback, unescChars_flatMap (d :: ds)]

/-- The escape of a segment never contains a separator. -/
theorem escape_no_slash (s : String) (x : Char)
    (hx : x ∈ (escapeJsonPath s).data) : x ≠ '/' := by
  have hx2 : x ∈ s.data.flatMap escChar := hx
  obtain ⟨c, _, hc⟩ := List.mem_flatMap.mp hx2
  exact escChar_no_slash c x hc

/-- Unescaping inverts escaping on whole segments. -/
theorem unescape_escape (s : String) : unescapeJsonPath (escapeJsonPath s) = s := by
  show String.mk (unescChars (escapeJsonPath s).data) = s
  rw [show (escapeJsonPath s).data = s.data.flatMap escChar from rfl,
    unescChars_flatMap]

/-- String append is associative. -/
theorem str_append_assoc (a b c : String) : a ++ b ++ c = a ++ (b ++ c) := by
  cases a with | mk la => ?_
  cases b with | mk lb => ?_
  cases c with | mk lc => ?_
  show String.mk (la ++ lb ++ lc) = String.mk (la ++ (lb ++ lc))
  rw [List.append_assoc]

/-- The empty string is a left unit. -/
theorem str_nil_append (s : String) : "" ++ s = s := by
  cases s with | mk l => rfl

/-- The empty string is a right unit. -/
theorem str_append_nil (s : String) : s ++ "" = s := by
  cases s with | mk l => ?_
  show String.mk (l ++ []) = String.mk l
  rw [List.append_nil]

/-- Splitting a separator-free character list yields one segment. -/
theorem splitSlash_no_slash : ∀ (l : List Char), (∀ x ∈ l, x ≠ '/') →
    splitSlash l = [l]
  | [] => fun _ => rfl
  | c :: rest => fun h => by
      rw [splitSlash, if_neg (h c (by simp)),
        splitSlash_no_slash rest (fun x hx => h x (by simp [hx]))]

/-- Splitting past a separator-free head segment. -/
theorem splitSlash_slash_append : ∀ (l1 l2 : List Char), (∀ x ∈ l1, x ≠ '/') →
    splitSlash (l1 ++ '/' :: l2) = l1 :: splitSlash l2
  | [], l2 => fun _ => by
      rw [List.nil_append, splitSlash, if_pos rfl]
  | c :: r1, l2 => fun h => by
      rw [List.cons_append, splitSlash, if_neg (h c (by simp)),
        splitSlash_slash_append r1 l2 (fun x hx => h x (by simp [hx]))]

/-- `joinParts` distributes over list append (both parts nonempty). -/
theorem joinParts_append : ∀ (a b : List String), a ≠ [] → b ≠ [] →
    joinParts (a ++ b) = joinParts a ++ "/" ++ joinParts b
  | [], b, ha, _ => absurd rfl ha
  | [p], b, _, hb => by
      cases b with
      | nil => exact absurd rfl hb
      | cons q bs => rfl
  | p :: p2 :: rest, b, _, hb => by
      have ih := joinParts_append (p2 :: rest) b (by simp) hb
      show joinParts (p :: (p2 :: rest ++ b)) = _
      rw [show joinParts (p :: (p2 :: rest ++ b)) =
            p ++ "/" ++ joinParts (p2 :: rest ++ b) from by
          cases hx : p2 :: rest ++ b with
          | nil => simp at hx
          | cons y ys => rfl]
      rw [ih, joinParts]
      simp [str_append_assoc]

/-- Splitting the join of separator-free segments recovers the segments. -/
theorem splitSlash_joinParts : ∀ (ps : List String), ps ≠ [] →
    (∀ p ∈ ps, ∀ x ∈ p.data, x ≠ '/') →
    splitSlash (joinParts ps).data = ps.map String.data
  | [], h, _ => absurd rfl h
  | [p], _, h => by
      rw [show joinParts [p] = p from rfl,
        splitSlash_no_slash p.data (h p (by simp))]
      rfl
  | p :: q :: rest, _, h => by
      have hdata : (joinParts (p :: q :: rest)).data =
          p.data ++ '/' :: (joinParts (q :: rest)).data := by
        rw [show joinParts (p :: q :: rest) = p ++ "/" ++ joinParts (q :: rest) from rfl]
        cases p with | mk lp => ?_
        cases hjq : joinParts (q :: rest) with | mk lq => ?_
        show lp ++ ['/'] ++ lq = lp ++ '/' :: lq
        rw [List.append_assoc]
        rfl
      rw [hdata, splitSlash_slash_append _ _ (h p (by simp)),
        splitSlash_joinParts (q :: rest) (by simp)
          (fun r hr => h r (List.mem_cons_of_mem p hr))]
      rfl

/-- Splitting a `/`-prefixed join of separator-free segments unescapes
them. -/
theorem splitJsonPath_slash_join (qs : List String) (hq : qs ≠ [])
    (hsf : ∀ q ∈ qs, ∀ x ∈ String.data q, x ≠ '/') :
    splitJsonPath ("/" ++ joinParts qs) = qs.map unescapeJsonPath := by
  have hdata : ("/" ++ joinParts qs).data = '/' :: (joinParts qs).data := by
    cases hjq : joinParts qs with | mk lq => rfl
  have hsplit : splitSlash ("/" ++ joinParts qs).data = [] :: qs.map String.data := by
    rw [hdata, splitSlash, if_pos rfl, splitSlash_joinParts qs hq hsf]
  simp only [splitJsonPath, hsplit, List.map_cons, List.map_map]
  rw [show unescapeJsonPath (String.mk []) = "" from rfl, if_pos rfl]
  rfl

/-- Splitting a join of separator-free segments whose first member does not
unescape to the empty string unescapes them. -/
theorem splitJsonPath_join_noslash (q0 : String) (qtl : List String)
    (hsf : ∀ q ∈ q0 :: qtl, ∀ x ∈ String.data q, x ≠ '/')
    (hh : unescapeJsonPath q0 ≠ "") :
    splitJsonPath (joinParts (q0 :: qtl)) = (q0 :: qtl).map unescapeJsonPath := by
  have hsplit : splitSlash (joinParts (q0 :: qtl)).data =
      (q0 :: qtl).map String.data :=
    splitSlash_joinParts (q0 :: qtl) (by simp) hsf
  simp only [splitJsonPath, hsplit, List.map_cons, List.map_map]
  rw [show (fun cs => unescapeJsonPath (String.mk cs)) ∘ String.data =
        unescapeJsonPath from rfl]
  rw [show unescapeJsonPath (String.mk q0.data) = unescapeJsonPath q0 from rfl]
  rw [if_neg hh]

/-- Splitting the join of whole escaped segments recovers the segments. -/
theorem splitJsonPath_joinJsonPath : ∀ (ps : List String),
    splitJsonPath (joinJsonPath ps) = ps
  | [] => rfl
  | p :: rest => by
      rw [show joinJsonPath (p :: rest) =
            "/" ++ joinParts ((p :: rest).map escapeJsonPath) from rfl]
      rw [splitJsonPath_slash_join _ (by simp)
        (fun q hq x hxq => by
          obtain ⟨s0, _, rfl⟩ := List.mem_map.mp hq
          exact escape_no_slash s0 x hxq)]
      rw [List.map_map]
      rw [show unescapeJsonPath ∘ escapeJsonPath = fun s => s from
        funext unescape_escape]
      simp

/-- Splitting the relative path emitted by `getRelativePathTo`: the `..`
segments followed by the escaped target segments come back verbatim. -/
theorem splitJsonPath_dots (m : Nat) (rest : List String) :
    splitJsonPath (joinParts (List.replicate m "..") ++ joinJsonPath rest) =
      List.replicate m ".." ++ rest := by
  cases m with
  | zero =>
      rw [List.replicate_zero, show joinParts [] = "" from rfl,
        str_nil_append, splitJsonPath_joinJsonPath, List.nil_append]
  | succ m2 =>
      have hdotsf : ∀ q ∈ List.replicate (m2 + 1) "..",
          ∀ x ∈ String.data q, x ≠ '/' := by
        intro q hq x hxq
        rw [List.eq_of_mem_replicate hq] at hxq
        intro he
        subst he
        exact absurd hxq (by decide)
      cases rest with
      | nil =>
          rw [show joinJsonPath [] = "" from rfl, str_append_nil]
          rw [show List.replicate (m2 + 1) ".." = ".." :: List.replicate m2 ".." from
            List.replicate_succ .. ]
          rw [splitJsonPath_join_noslash ".." (List.replicate m2 "..")
            (by rw [← List.replicate_succ]; exact hdotsf) (by decide)]
          rw [show (".." :: List.replicate m2 "..").map unescapeJsonPath =
                ".." :: (List.replicate m2 "..").map unescapeJsonPath from rfl,
            List.map_replicate]
          rw [show unescapeJsonPath ".." = ".." from rfl, List.append_nil]
      | cons r0 rs =>
          have hrw : joinParts (List.replicate (m2 + 1) "..") ++
              joinJsonPath (r0 :: rs) =
              joinParts (List.replicate (m2 + 1) ".." ++
                (r0 :: rs).map escapeJsonPath) := by
            rw [joinParts_append (List.replicate (m2 + 1) "..")
              ((r0 :: rs).map escapeJsonPath) (by simp) (by simp)]
            rw [show joinJsonPath (r0 :: rs) =
              "/" ++ joinParts ((r0 :: rs).map escapeJsonPath) from rfl]
            rw [str_append_assoc]
          rw [hrw]
          rw [show List.replicate (m2 + 1) ".." ++ (r0 :: rs).map escapeJsonPath =
                ".." :: (List.replicate m2 ".." ++ (r0 :: rs).map escapeJsonPath) from by
            rw [List.replicate_succ, List.cons_append]]
          rw [splitJsonPath_join_noslash ".."
            (List.replicate m2 ".." ++ (r0 :: rs).map escapeJsonPath)
            (by
              intro q hq x hxq
              rw [show (".." : String) :: (List.replicate m2 ".." ++
                    (r0 :: rs).map escapeJsonPath) =
                  List.replicate (m2 + 1) ".." ++ (r0 :: rs).map escapeJsonPath from by
                rw [List.replicate_succ, List.cons_append]] at hq
              rcases List.mem_append.mp hq with h1 | h2
              · exact hdotsf q h1 x hxq
              · obtain ⟨s0, _, rfl⟩ := List.mem_map.mp h2
                exact escape_no_slash s0 x hxq)
            (by decide)]
          rw [List.map_cons, List.map_append, List.map_map, List.map_replicate]
          rw [show unescapeJsonPath ∘ escapeJsonPath = fun s => s from
            funext unescape_escape]
          rw [show unescapeJsonPath ".." = ".." from rfl]
          rw [List.replicate_succ, List.cons_append]
          simp

/-- `joinParts` of a snoc appends one separator and segment. -/
theorem joinParts_snoc (ps : List String) (q : String) (hps : ps ≠ []) :
    joinParts (ps ++ [q]) = joinParts ps ++ "/" ++ q :=
  joinParts_append ps [q] hps (by simp)

/-- `joinJsonPath` of a snoc appends one separator and escaped segment. -/
theorem joinJsonPath_snoc (pa : Addr) (k : String) :
    joinJsonPath (pa ++ [k]) = joinJsonPath pa ++ "/" ++ escapeJsonPath k := by
  cases pa with
  | nil =>
      rw [List.nil_append, show joinJsonPath [] = "" from rfl]
      rw [show joinJsonPath [k] = "/" ++ joinParts [escapeJsonPath k] from rfl]
      rw [show joinParts [escapeJsonPath k] = escapeJsonPath k from rfl]
      rw [str_nil_append]
  | cons p rest =>
      rw [show joinJsonPath (p :: rest ++ [k]) =
            "/" ++ joinParts ((p :: rest ++ [k]).map escapeJsonPath) from rfl]
      rw [show joinJsonPath (p :: rest) =
            "/" ++ joinParts ((p :: rest).map escapeJsonPath) from rfl]
      rw [List.map_append,
        show ([k] : List String).map escapeJsonPath = [escapeJsonPath k] from rfl,
        joinParts_snoc _ _ (by simp)]
      simp [str_append_assoc]

/-- In a well-keyed tree the node at `pa ++ [k]` is the `k`-child of the
node at `pa`, is stored under its own subpath, and has a non-null parent
pointer. -/
theorem wf_get_snoc (pa : Addr) (k : String) (t s : LTree)
    (hwf : wfKeysT t = true) (hget : t.get? (pa ++ [k]) = some s) :
    ∃ u, t.get? pa = some u ∧ u.childrenF.lookupKey k = some s ∧
      s.info.subpathF = k ∧ s.info.parentNullF = false := by
  have h2 := hget
  rw [LTree.get?_append] at h2
  cases hu : t.get? pa with
  | none => rw [hu] at h2; exact absurd h2 (by simp)
  | some u => ?_
  rw [hu] at h2
  simp only [Option.some_bind] at h2
  cases u with | node ust uch => ?_
  rw [LTree.get?] at h2
  cases hl : uch.lookupKey k with
  | none => rw [hl] at h2; exact absurd h2 (by simp)
  | some c => ?_
  simp only [hl] at h2
  have hc0 : c.get? [] = some c := by cases c with | node x y => rfl
  rw [hc0] at h2
  cases h2
  have hwu : wfKeysT (LTree.node ust uch) = true := (wf_get_props pa t _ hwf hu).1
  have hwch : wfKeysF uch = true := by simpa [wfKeysT] using hwu
  obtain ⟨hsp, hpn, _⟩ := wfKeysF_lookup uch k s hwch hl
  refine ⟨LTree.node ust uch, rfl, ?_, hsp, hpn⟩
  simpa [LTree.childrenF] using hl

/-- In a well-keyed tree the `path` getter of a valid node joins its address
segments (auxiliary form on the reversed address). -/
theorem pathAtAux_eq_join : ∀ (ra : List String) (t s : LTree),
    wfKeysT t = true → t.get? ra.reverse = some s →
    pathAtAux t ra = joinJsonPath ra.reverse
  | [], t, s => by intro _ _; rfl
  | k :: up, t, s => by
      intro hwf hget
      have hget' : t.get? (up.reverse ++ [k]) = some s := by
        simpa using hget
      obtain ⟨u, hu, hl, hsp, hpn⟩ := wf_get_snoc up.reverse k t s hwf hget'
      have hinfo : infoAt t ((k :: up).reverse) = s.info := by
        simp [infoAt, hget']
      rw [pathAtAux]
      rw [hinfo, hpn]
      rw [if_neg (by simp)]
      rw [hsp, pathAtAux_eq_join up t u hwf hu]
      rw [List.reverse_cons, joinJsonPath_snoc]

/-- In a well-keyed tree the `path` getter of a valid node joins its address
segments. -/
theorem pathAt_eq_join (t s : LTree) (a : Addr) (hwf : wfKeysT t = true)
    (hget : t.get? a = some s) : pathAt t a = joinJsonPath a := by
  have h := pathAtAux_eq_join a.reverse t s hwf (by simpa using hget)
  simpa [pathAt] using h

/-- Looking up a child of an all-alive children map yields an all-alive
child. -/
theorem allAliveF_lookup : ∀ (ch : LForest) (k : String) (c : LTree),
    allAliveF ch = true → ch.lookupKey k = some c → allAliveT c = true
  | .nil, k, c => by intro _ h; simp [LForest.lookupKey] at h
  | .cons k' c' rest, k, c => by
      intro hal hlk
      simp only [allAliveF, Bool.and_eq_true] at hal
      rw [LForest.lookupKey] at hlk
      by_cases hkk : k' = k
      · subst hkk
        simp at hlk
        subst hlk
        exact hal.1
      · simp only [if_neg hkk] at hlk
        exact allAliveF_lookup rest k c hal.2 hlk

/-- Every node of an all-alive tree is all-alive. -/
theorem allAlive_get : ∀ (a : Addr) (t u : LTree), allAliveT t = true →
    t.get? a = some u → allAliveT u = true
  | [], t, u => by
      intro h hg
      simp only [LTree.get?, Option.some.injEq] at hg
      subst hg
      exact h
  | k :: ks, .node st ch, u => by
      intro h hg
      rw [LTree.get?] at hg
      cases hl : ch.lookupKey k with
      | none => rw [hl] at hg; exact absurd hg (by simp)
      | some c =>
          rw [hl] at hg
          have hcal : allAliveT c = true :=
            allAliveF_lookup ch k c (by
              simp only [allAliveT, Bool.and_eq_true] at h
              exact h.2) hl
          exact allAlive_get ks c u hcal hg

/-- The common-prefix length never exceeds the first path's length. -/
theorem commonPrefLen_le_left : ∀ (a b : List String),
    commonPrefLen a b ≤ a.length
  | [], b => by cases b <;> simp [commonPrefLen]
  | a0 :: as, [] => by simp [commonPrefLen]
  | a0 :: as, b0 :: bs => by
      by_cases hab : a0 = b0
      · have := commonPrefLen_le_left as bs
        simp only [commonPrefLen, if_pos hab, List.length_cons]
        omega
      · simp [commonPrefLen, hab]

/-- The two paths agree on their common prefix. -/
theorem commonPref_take : ∀ (a b : List String),
    a.take (commonPrefLen a b) = b.take (commonPrefLen a b)
  | [], b => by cases b <;> simp [commonPrefLen]
  | a0 :: as, [] => by simp [commonPrefLen]
  | a0 :: as, b0 :: bs => by
      by_cases hab : a0 = b0
      · simp [commonPrefLen, hab, commonPref_take as bs]
      · simp [commonPrefLen, hab]

/-- `m` leading `..` segments pop `m` levels from the current address. -/
theorem resolveLoop_pops : ∀ (m : Nat) (a : Addr) (t : LTree)
    (fp r2 : List String) (fe : Bool) (i : Nat), m ≤ a.length →
    resolveLoop t fp fe (some a) (List.replicate m ".." ++ r2) i =
      resolveLoop t fp fe (some (a.take (a.length - m))) r2 (i + m)
  | 0, a, t, fp, r2, fe, i => by
      intro _
      simp [List.replicate]
  | m + 1, a, t, fp, r2, fe, i => by
      intro hm
      have hne : a ≠ [] := by
        intro h
        rw [h] at hm
        simp at hm
      rw [List.replicate_succ, List.cons_append, resolveLoop]
      rw [if_neg (by decide : ¬(".." : String) = ""), if_pos rfl]
      rw [if_neg hne]
      have ih := resolveLoop_pops m a.dropLast t fp r2 fe (i + 1)
        (by simp [List.length_dropLast]; omega)
      rw [show (match (some a.dropLast : Option Addr) with
            | none =>
                if fe then
                  Except.error (MErr.resolutionError ".."
                    (joinJsonPath (jsSliceTo fp ((i : Int) - 1))))
                else Except.ok none
            | some a2 =>
                resolveLoop t fp fe (some a2) (List.replicate m ".." ++ r2) (i + 1)) =
          resolveLoop t fp fe (some a.dropLast) (List.replicate m ".." ++ r2) (i + 1)
          from rfl]
      rw [ih]
      have h1 : a.dropLast.take (a.dropLast.length - m) = a.take (a.length - (m + 1)) := by
        rw [List.length_dropLast, List.dropLast_eq_take, List.take_take]
        congr 1
        omega
      have h2 : i + 1 + m = i + (m + 1) := by omega
      rw [h1, h2]

/-- Descending through ordinary segments below an all-alive well-keyed
subtree resolves to the concatenated address. -/
theorem resolveLoop_descend : ∀ (ds : List String) (a : Addr) (t s : LTree)
    (fp : List String) (fe : Bool) (i : Nat),
    allAliveT t = true → t.get? (a ++ ds) = some s →
    (∀ k ∈ ds, k ≠ "" ∧ k ≠ "." ∧ k ≠ "..") →
    resolveLoop t fp fe (some a) ds i = .ok (some (a ++ ds))
  | [], a, t, s, fp, fe, i => by
      intro _ _ _
      simp [resolveLoop]
  | d :: ds2, a, t, s, fp, fe, i => by
      intro hal hget hnorm
      obtain ⟨hd1, hd2, hd3⟩ := hnorm d (by simp)
      have hga := hget
      rw [show a ++ d :: ds2 = a ++ [d] ++ ds2 from by simp] at hga
      rw [LTree.get?_append] at hga
      cases hu : t.get? (a ++ [d]) with
      | none => rw [hu] at hga; exact absurd hga (by simp)
      | some u => ?_
      rw [hu] at hga
      simp only [Option.some_bind] at hga
      have hgp := hu
      rw [LTree.get?_append] at hgp
      cases hp : t.get? a with
      | none => rw [hp] at hgp; exact absurd hgp (by simp)
      | some w => ?_
      rw [hp] at hgp
      simp only [Option.some_bind] at hgp
      cases w with | node wst wch => ?_
      rw [LTree.get?] at hgp
      cases hl : wch.lookupKey d with
      | none => rw [hl] at hgp; exact absurd hgp (by simp)
      | some c => ?_
      rw [hl] at hgp
      have halw : wst.isAliveF = true := by
        have := allAlive_get a t (.node wst wch) hal hp
        simp only [allAliveT, Bool.and_eq_true] at this
        exact this.1
      have hgc : getChildNodeM t a d = .ok (a ++ [d]) := by
        simp [getChildNodeM, hp, halw, hl]
      rw [resolveLoop, if_neg hd1, if_neg hd3, if_neg hd2]
      simp only [hgc]
      have ih := resolveLoop_descend ds2 (a ++ [d]) t s fp fe (i + 1) hal
        (by rw [show a ++ [d] ++ ds2 = a ++ d :: ds2 from by simp]; exact hget)
        (fun k hk => hnorm k (by simp [hk]))
      rw [ih]
      rw [show a ++ [d] ++ ds2 = a ++ d :: ds2 from by simp]

/-- C4 (amended): `getRelativePathTo` raises the cross-tree error when the
two nodes' root trees differ, and otherwise emits one `..` per own segment
past the longest common path prefix followed by the target's remaining
escaped segments; the `resolve` / `getRelativePathTo` round trip returns
exactly the target node provided the tree is well-keyed and all-alive and
the target's segments past the common prefix are ordinary names — not
`""`, `"."` or `".."`, for which the emitted path is reinterpreted by
`resolve` and the round trip fails (see the counterexample). -/
theorem resolve_relative_round_trip :
    (∀ (f : Forest) (i j : Nat) (ab bb : Addr), i ≠ j →
        getRelativePathToM f (i, ab) (j, bb) = .error .crossTree) ∧
    (∀ (f : Forest) (i : Nat) (t sa sb : LTree) (ab bt : Addr),
        f[i]? = some t → wfKeysT t = true → allAliveT t = true →
        t.get? ab = some sa → t.get? bt = some sb →
        (∀ k ∈ bt.drop (commonPrefLen ab bt), k ≠ "" ∧ k ≠ "." ∧ k ≠ "..") →
        getRelativePathToM f (i, ab) (i, bt) =
          .ok (joinParts ((ab.drop (commonPrefLen ab bt)).map fun _ => "..") ++
               joinJsonPath (bt.drop (commonPrefLen ab bt))) ∧
        resolveM t ab
          (joinParts ((ab.drop (commonPrefLen ab bt)).map fun _ => "..") ++
           joinJsonPath (bt.drop (commonPrefLen ab bt))) true = .ok (some bt)) := by
  constructor
  · intro f i j ab bb hij
    simp [getRelativePathToM, hij]
  · intro f i t sa sb ab bt hT hwf hal hga hgb hnorm
    have hbase : splitJsonPath (pathAt t ab) = ab := by
      rw [pathAt_eq_join t sa ab hwf hga, splitJsonPath_joinJsonPath]
    have htgt : splitJsonPath (pathAt t bt) = bt := by
      rw [pathAt_eq_join t sb bt hwf hgb, splitJsonPath_joinJsonPath]
    constructor
    · simp only [getRelativePathToM, hT, hbase, htgt]
      rw [if_neg (by simp)]
    · have hsplitP : splitJsonPath
          (joinParts ((ab.drop (commonPrefLen ab bt)).map fun _ => "..") ++
           joinJsonPath (bt.drop (commonPrefLen ab bt))) =
          List.replicate (ab.length - commonPrefLen ab bt) ".." ++
            bt.drop (commonPrefLen ab bt) := by
        rw [show (ab.drop (commonPrefLen ab bt)).map (fun _ => (".." : String)) =
              List.replicate (ab.length - commonPrefLen ab bt) ".." from by
          rw [List.map_const', List.length_drop]]
        exact splitJsonPath_dots _ _
      rw [resolveM, resolvePathM, hsplitP]
      rw [resolveLoop_pops (ab.length - commonPrefLen ab bt) ab t _ _ true 0
        (Nat.sub_le _ _)]
      rw [show ab.length - (ab.length - commonPrefLen ab bt) = commonPrefLen ab bt
        from Nat.sub_sub_self (commonPrefLen_le_left ab bt)]
      rw [commonPref_take ab bt]
      rw [resolveLoop_descend (bt.drop (commonPrefLen ab bt))
        (bt.take (commonPrefLen ab bt)) t sb _ true
        (0 + (ab.length - commonPrefLen ab bt)) hal
        (by rw [List.take_append_drop]; exact hgb) hnorm]
      rw [List.take_append_drop]

/-- C4 counterexample: with a child stored under the subpath `".."` (the
node layer accepts any subpath string), `getRelativePathTo` emits `"../.."`,
which `resolve` reinterprets as two parent steps and raises a resolution
error instead of returning the target node — the round trip is not the
identity. -/
theorem relative_round_trip_fails :
    cxT.get? [".."] = some (.node (mkInfo 2 "..") .nil) ∧
    getRelativePathToM [cxT] (0, ["x"]) (0, [".."]) = .ok "../.." ∧
    resolveM cxT ["x"] "../.." true = .error (.resolutionError ".." "") :=
  ⟨rfl, rfl, rfl⟩

/-- C4 witness: the round trip at the concrete tree `fixT`, from `x/z` to
the ordinary sibling `w` — the emitted path is `"../../w"` and resolving it
returns exactly the target — and the cross-tree error across two roots. -/
theorem resolve_relative_round_trip_holds :
    getRelativePathToM [fixT, cxT] (0, ["x"]) (1, []) = .error .crossTree ∧
    getRelativePathToM [fixT] (0, ["x", "z"]) (0, ["w"]) = .ok "../../w" ∧
    resolveM fixT ["x", "z"] "../../w" true = .ok (some ["w"]) := by
  refine ⟨resolve_relative_round_trip.1 [fixT, cxT] 0 1 ["x"] [] (by decide), ?_, ?_⟩
  · exact (resolve_relative_round_trip.2 [fixT] 0 fixT _ _ ["x", "z"] ["w"]
      rfl (by decide) (by decide) rfl rfl (by decide)).1
  · exact (resolve_relative_round_trip.2 [fixT] 0 fixT _ _ ["x", "z"] ["w"]
      rfl (by decide) (by decide) rfl rfl (by decide)).2

end MST
